import Mathlib

/-!
Verification of the dependency-resolution core of `porg_deps.py`
(repository Lfs-orch).

Every definition below is a direct shallow embedding of a function of
`src/porg/lib/porg_deps.py`, except those whose doc comment starts with
`Modelled from the spec:`, which embed components the specification
describes but that are absent from the sources provided.

Names are strings.  Python dicts are embedded as insertion-ordered
association lists (`List (key × value)`); Python sets attached to a graph
node are embedded as insertion-ordered duplicate-free lists.  The
unbounded Python loops (worklist of `build_graph_for`, Kahn queue of
`topo_sort`, recursion of `_dfs_cycle` and `check_rebuild`) are embedded
with an explicit fuel argument; fuel bounds sufficient for the real,
terminating executions are fixed at the call sites and the theorems that
need totality carry the corresponding fuel hypotheses discharged there.
-/

namespace Porg

/-- Canonical in-memory package record produced by `parse_metafile` /
`get_pkg_meta` (fields `name`, `version`, `dependencies`, `is_group`,
`components`, `tier`). -/
structure PkgMeta where
  name : String
  version : String
  dependencies : List String
  is_group : Bool
  components : List String
  tier : String
deriving DecidableEq, Repr

/-- Metadata environment: `get_pkg_meta` as a pure function from package
name to its canonical record.  A package with no metafile is the default
record (`{"name": pkg, "version": "", "dependencies": [], "is_group":
False, "components": [], "tier": "unknown"}`), so a total function models
both the found and the not-found case. -/
abbrev MetaEnv := String → PkgMeta

/-- The record `get_pkg_meta` returns when no metafile is found. -/
def defaultMeta (pkg : String) : PkgMeta :=
  ⟨pkg, "", [], false, [], "unknown"⟩

/-- `TIER_ORDER` mapping (`core=0, system=1, libs=2, gui=3, desktop=4,
optional=5, unknown=6`). -/
def TIER_ORDER (t : String) : Nat :=
  if t = "core" then 0
  else if t = "system" then 1
  else if t = "libs" then 2
  else if t = "gui" then 3
  else if t = "desktop" then 4
  else if t = "optional" then 5
  else 6

/-- Installed-DB record: the fields `installed_version`/`is_installed`
consult (`v.get("name")`, `v.get("version","")`). -/
structure InstRec where
  name : String
  version : String
deriving DecidableEq, Repr

/-- The installed DB: insertion-ordered key/record pairs. -/
abbrev InstalledDb := List (String × InstRec)

/-- `a.isPrefixOf b` for char lists agrees with `∃ t, b = a ++ t`
(embeds Python's `str.startswith`). -/
theorem isPrefixOf_eq_true_iff (a b : List Char) :
    a.isPrefixOf b = true ↔ ∃ t, b = a ++ t := by
  induction a generalizing b with
  | nil => simp [List.isPrefixOf]
  | cons c a ih =>
    cases b with
    | nil => simp [List.isPrefixOf]
    | cons d b =>
      simp only [List.isPrefixOf, Bool.and_eq_true, beq_iff_eq, ih, List.cons_append,
        List.cons.injEq]
      constructor
      · rintro ⟨rfl, t, rfl⟩; exact ⟨t, rfl, rfl⟩
      · rintro ⟨t, rfl, rfl⟩; exact ⟨rfl, t, rfl⟩

/-- `is_installed(pkgname, installed_db)`: some entry `(k, v)` satisfies
`k == pkgname or k.startswith(pkgname + "-") or v.get("name") == pkgname`. -/
def is_installed (pkgname : String) (db : InstalledDb) : Bool :=
  db.any fun e =>
    e.1 == pkgname || (pkgname ++ "-").data.isPrefixOf e.1.data || e.2.name == pkgname

/-- `installed_version(pkgname, installed_db)`: the `version` field of the
first entry matching the same test as `is_installed`, else `""`. -/
def installed_version (pkgname : String) (db : InstalledDb) : String :=
  match db.find? (fun e =>
      e.1 == pkgname || (pkgname ++ "-").data.isPrefixOf e.1.data || e.2.name == pkgname) with
  | some e => e.2.version
  | none => ""

/-! ### The dependency graph (`DepResolver.graph`)

`self.graph : Dict[str, Set[str]]` is embedded as an insertion-ordered
association list from node to its insertion-ordered, duplicate-free
dependency list. -/

/-- The resolver's graph. -/
abbrev Graph := List (String × List String)

/-- The node set of the graph, in insertion order (`self.graph.keys()`). -/
def gkeys (g : Graph) : List String := g.map (·.1)

/-- `self.graph.get(pkg, [])` / `self.graph.get(n, [])`. -/
def getDeps (g : Graph) (pkg : String) : List String :=
  match g.find? (fun e => e.1 == pkg) with
  | some e => e.2
  | none => []

/-- `DepResolver.add_node`: insert `pkg` with an empty edge set unless
already present (the `self.meta` side table always holds `get_pkg_meta`
of the node, so it is the environment itself and needs no embedding). -/
def add_node (g : Graph) (pkg : String) : Graph :=
  if pkg ∈ gkeys g then g else g ++ [(pkg, [])]

/-- Add `dep` to the edge set of `pkg` (`self.graph[pkg].add(dep)`),
assuming `pkg` is a key. -/
def addDepTo (g : Graph) (pkg dep : String) : Graph :=
  g.map fun e =>
    if e.1 = pkg then (e.1, if dep ∈ e.2 then e.2 else e.2 ++ [dep]) else e

/-- `DepResolver.add_edge`. -/
def add_edge (g : Graph) (pkg dep : String) : Graph :=
  addDepTo (add_node (add_node g pkg) dep) pkg dep

/-- `expand_group(pkg)`: a group's component list, else `[pkg]`. -/
def expand_group (env : MetaEnv) (pkg : String) : List String :=
  if (env pkg).is_group then (env pkg).components else [pkg]

/-- One component step of the worklist body of `build_graph_for`:
ensure the component is a node, add an edge per declared dependency, and
compute the names the loop appends to `to_process` (for each dependency
`d`, `d` is appended only if `d not in self.graph` — tested *after*
`add_edge` has inserted it; for a group component, its components not yet
in the graph).  Returns the updated graph and the appended names in
order. -/
def depStep (comp : String) (acc : Graph × List String) (d : String) :
    Graph × List String :=
  let g' := add_edge acc.1 comp d
  (g', acc.2 ++ (if d ∈ gkeys g' then [] else [d]))

def processComp (env : MetaEnv) (g : Graph) (comp : String) : Graph × List String :=
  let g1 := add_node g comp
  let pm := env comp
  let r := pm.dependencies.foldl (depStep comp) (g1, [])
  if pm.is_group then
    (r.1, r.2 ++ pm.components.filter (fun c => ¬ (c ∈ gkeys r.1)))
  else
    r

/-- One step of the `for comp in comps` loop of `build_graph_for`. -/
def compStep (env : MetaEnv) (acc : Graph × List String) (comp : String) :
    Graph × List String :=
  let r := processComp env acc.1 comp
  (r.1, acc.2 ++ r.2)

/-- The `for comp in comps` loop of `build_graph_for`. -/
def processComps (env : MetaEnv) (g : Graph) (comps : List String) : Graph × List String :=
  comps.foldl (compStep env) (g, [])

/-- `DepResolver.build_graph_for` with `expand_groups=True`: FIFO worklist
seeded with the roots; each popped name is group-expanded and its
components processed.  `fuel` bounds the number of worklist pops (the
Python loop is unbounded; it can in fact diverge on cyclic group
components, so the embedding makes the bound explicit). -/
def build_graph_for (env : MetaEnv) : Nat → List String → Graph → Graph
  | 0, _, g => g
  | _, [], g => g
  | Nat.succ fuel, cur :: rest, g =>
    let r := processComps env g (expand_group env cur)
    build_graph_for env fuel (rest ++ r.2) r.1

/-! ### Topological sort (`DepResolver.topo_sort`) -/

/-- `indeg[d] = indeg.get(d, 0) + 1` on an insertion-ordered dict. -/
def bump : List (String × Int) → String → List (String × Int)
  | [], d => [(d, 1)]
  | (k, v) :: t, d => if k = d then (k, v + 1) :: t else (k, v) :: bump t d

/-- `indeg[m] -= 1` (the key is always present in the real executions;
a missing key, which would raise `KeyError` in Python, is a no-op). -/
def decKey (l : List (String × Int)) (m : String) : List (String × Int) :=
  l.map fun e => if e.1 = m then (e.1, e.2 - 1) else e

/-- Look up a counter. -/
def getCount (l : List (String × Int)) (m : String) : Option Int :=
  match l.find? (fun e => e.1 == m) with
  | some e => some e.2
  | none => none

/-- One decrement of the inner loop of `topo_sort` (`indeg[m] -= 1`
followed by `if indeg[m] == 0: q.append(m)`). -/
def kahnDec (acc : List (String × Int) × List String) (m : String) :
    List (String × Int) × List String :=
  let indeg' := decKey acc.1 m
  (indeg', acc.2 ++ (if getCount indeg' m = some 0 then [m] else []))

/-- The inner `for m in self.graph.get(n, [])` loop of `topo_sort`:
decrement each dependency's counter, enqueueing it when it reaches 0. -/
def kahnStep (indeg : List (String × Int)) (q : List String) (deps : List String) :
    List (String × Int) × List String :=
  deps.foldl kahnDec (indeg, q)

/-- The `while q` loop of `topo_sort` (fuel-bounded; one pop per unit). -/
def kahnLoop (g : Graph) : Nat → List String → List (String × Int) → List String → List String
  | 0, _, _, order => order
  | _, [], _, order => order
  | Nat.succ fuel, n :: q, indeg, order =>
    let r := kahnStep indeg q (getDeps g n)
    kahnLoop g fuel r.2 r.1 (order ++ [n])

/-- The counter table of `topo_sort`: `indeg = {n: 0 for n in
self.graph}` followed by `indeg[d] = indeg.get(d, 0) + 1` for every edge
`n → d` — so it counts, for each node, how many nodes list it as a
dependency. -/
def initIndeg (g : Graph) : List (String × Int) :=
  g.foldl (fun acc e => e.2.foldl bump acc) ((gkeys g).map (fun n => (n, (0 : Int))))

/-- `DepResolver.topo_sort`: Kahn's algorithm seeded with the nodes of
zero counter, followed by the cycle fallback that appends the remaining
nodes in graph order. -/
def topo_sort (g : Graph) : List String :=
  let indeg := initIndeg g
  let q0 := (indeg.filter (fun e => e.2 = 0)).map (·.1)
  let order := kahnLoop g (gkeys g).length q0 indeg []
  if order.length ≠ (gkeys g).length then
    order ++ (gkeys g).filter (fun n => ¬ (n ∈ order))
  else order

/-- Python's `list.index` (first occurrence; length if absent). -/
def idxOfS : List String → String → Nat
  | [], _ => 0
  | x :: xs, n => if x = n then 0 else idxOfS xs n + 1

/-- `DepResolver.tier_sort`: stable sort of `nodes` by
`(TIER_ORDER[tier], nodes.index(x))`. -/
def tier_sort (env : MetaEnv) (nodes : List String) : List String :=
  let key : String → Nat × Nat := fun n => (TIER_ORDER (env n).tier, idxOfS nodes n)
  nodes.insertionSort (fun a b =>
    (key a).1 < (key b).1 ∨ ((key a).1 = (key b).1 ∧ (key a).2 ≤ (key b).2))

/-! ### Cycle detection (`DepResolver._dfs_cycle` / `detect_cycles`) -/

/-- The detector's mutable state (`self.visiting`, `self.visited`,
`self.cycles`). -/
structure DfsSt where
  visiting : Finset String
  visited : Finset String
  cycles : List (List String)

/-- `DepResolver._dfs_cycle(node, stack)`: three-coloring DFS.  The path
stack is passed functionally (Python appends `node` before the dependency
loop and pops it afterwards, so each callee sees `stack + [node]` and the
caller's stack is unchanged on return).  `fuel` bounds recursion depth. -/
def dfs (g : Graph) : Nat → String → List String → DfsSt → DfsSt
  | 0, _, _, st => st
  | Nat.succ fuel, node, stack, st =>
    if node ∈ st.visiting then
      let cyc := if node ∈ stack then stack.drop (idxOfS stack node) ++ [node]
                 else stack ++ [node]
      { st with cycles := st.cycles ++ [cyc] }
    else if node ∈ st.visited then st
    else
      let st1 : DfsSt := { st with visiting := insert node st.visiting }
      let st2 := (getDeps g node).foldl (fun s d => dfs g fuel d (stack ++ [node]) s) st1
      { st2 with visiting := st2.visiting.erase node, visited := insert node st2.visited }

/-- Depth bound sufficient for `_dfs_cycle` (the gray path visits each
graph key at most once, plus one frame for a non-key leaf). -/
def FUELC (g : Graph) : Nat := (gkeys g).length + 2

/-- `DepResolver.detect_cycles`: clear the state, run the DFS from every
not-yet-finished node of the graph, and return the collected cycles. -/
def detect_cycles (g : Graph) : List (List String) :=
  ((gkeys g).foldl
    (fun st n => if n ∈ st.visited then st else dfs g (FUELC g) n [] st)
    ⟨∅, ∅, []⟩).cycles

/-! ### Rebuild analysis (`check_rebuild` inside `compute_upgrade_plan`) -/

/-- Python dict lookup on an insertion-ordered association list. -/
def dictGet {β : Type} : List (String × β) → String → Option β
  | [], _ => none
  | e :: t, k => if e.1 = k then some e.2 else dictGet t k

/-- Python dict assignment: overwrite in place, or append a fresh key
(first assignment fixes the iteration position of a key). -/
def dictPut {β : Type} (c : List (String × β)) (k : String) (v : β) :
    List (String × β) :=
  if k ∈ c.map (·.1) then
    c.map (fun e => if e.1 = k then (e.1, v) else e)
  else c ++ [(k, v)]

/-- The memo table `self.needs_rebuild_cache` (insertion-ordered dict). -/
abbrev Cache := List (String × Bool)

/-- Dict lookup on the memo table. -/
def lookupCache (c : Cache) (k : String) : Option Bool := dictGet c k

/-- Dict assignment on the memo table. -/
def insertCache (c : Cache) (k : String) (b : Bool) : Cache := dictPut c k b

/-- `check_rebuild(pkg, visited_local)`: memoized; a package on the active
recursion path forces `True`; an empty installed version forces `True`; a
non-empty declared version differing from the installed one forces
`True`; otherwise the first dependency needing rebuild forces `True`
(the loop short-circuits, leaving later dependencies unevaluated, exactly
like Python's early `return True`), else `False`.  `visited_local` is
passed functionally (Python adds `pkg` before the dependency loop and
removes it on every return path, so each callee sees
`visited_local ∪ {pkg}` and the caller's set is unchanged on return). -/
def check_rebuild (env : MetaEnv) (db : InstalledDb) (g : Graph) :
    Nat → String → Finset String → Cache → Bool × Cache
  | 0, _, _, c => (true, c)
  | Nat.succ fuel, pkg, visited, c =>
    match lookupCache c pkg with
    | some b => (b, c)
    | none =>
      if pkg ∈ visited then (true, insertCache c pkg true)
      else
        let instv := installed_version pkg db
        let srcv := (env pkg).version
        if instv = "" then (true, insertCache c pkg true)
        else if srcv ≠ "" ∧ srcv ≠ instv then (true, insertCache c pkg true)
        else
          let r := (getDeps g pkg).foldl
            (fun acc d =>
              if acc.1 then acc
              else check_rebuild env db g fuel d (insert pkg visited) acc.2)
            (false, c)
          if r.1 then (true, insertCache r.2 pkg true)
          else (false, insertCache r.2 pkg false)

/-- The `for d in self.graph.get(pkg, [])` loop of `check_rebuild` with
its early `return True`, as the short-circuiting fold of the definition
above. -/
def checkDeps (env : MetaEnv) (db : InstalledDb) (g : Graph) (fuel : Nat)
    (ds : List String) (visited : Finset String) (c : Cache) : Bool × Cache :=
  ds.foldl
    (fun acc d =>
      if acc.1 then acc
      else check_rebuild env db g fuel d visited acc.2)
    (false, c)

/-- Recursion-depth bound sufficient for `check_rebuild` (the active path
visits each graph key at most once, plus one frame for a non-key leaf). -/
def FUELR (g : Graph) : Nat := (gkeys g).length + 2

/-- The `for n in ordered: check_rebuild(n, set())` loop of
`compute_upgrade_plan`, starting from the resolver's empty memo table. -/
def run_rebuild (env : MetaEnv) (db : InstalledDb) (g : Graph) (ordered : List String) :
    Cache :=
  ordered.foldl (fun c n => (check_rebuild env db g (FUELR g) n ∅ c).2) []

/-- `needs = [p for p, val in self.needs_rebuild_cache.items() if val]`. -/
def needs_rebuild_list (c : Cache) : List String := (c.filter (·.2)).map (·.1)

/-- The output of `compute_upgrade_plan` (the fields the claims are
about). -/
structure Plan where
  order : List String
  needs_rebuild : List String
  cycles : List (List String)
deriving DecidableEq, Repr

/-- `DepResolver.compute_upgrade_plan(target_roots)`: build the graph
expanding groups, detect cycles, topologically sort, tier-sort, and mark
rebuilds against the installed DB.  `fuel` bounds the graph-builder
worklist (unbounded in Python). -/
def compute_upgrade_plan (env : MetaEnv) (db : InstalledDb) (fuel : Nat)
    (roots : List String) : Plan :=
  let g := build_graph_for env fuel roots []
  let cycles := detect_cycles g
  let ordered := tier_sort env (topo_sort g)
  let cache := run_rebuild env db g ordered
  { order := ordered, needs_rebuild := needs_rebuild_list cache, cycles := cycles }

/-! ### Resolution Cache (spec §4.9)

The sources provided declare only the cache file path
(`DEPS_CACHE = os.path.join(CACHE_DIR, "deps_cache.json")`) and report it
in `cmd_info`; the cache operations themselves and the plain `resolve`
path that consults them are not in `src/`. -/

/-- Modelled from the spec: the plain (non-tiered, non-rebuild) resolution
of a single root — the Graph Builder followed by the Topological Sorter
(spec §2: "a plain `resolve` request short-circuits after step 3+5"). -/
def plain_resolve (env : MetaEnv) (fuel : Nat) (root : String) : List String :=
  topo_sort (build_graph_for env fuel [root] [])

/-- Modelled from the spec: the persisted Resolution Cache, a mapping from
root package name to a previously computed order. -/
abbrev ResCache := List (String × List String)

/-- Modelled from the spec: `get(rootName) -> optional order`. -/
def cache_get (c : ResCache) (root : String) : Option (List String) :=
  dictGet c root

/-- Modelled from the spec: `put(rootName, order)`. -/
def cache_put (c : ResCache) (root : String) (o : List String) : ResCache :=
  dictPut c root o

/-- Modelled from the spec: `clear()`, the explicit invalidation used by
the `cache-clear` operation. -/
def cache_clear (_c : ResCache) : ResCache := []

/-- Modelled from the spec: the plain `resolve` query path — return the
cached order for the un-expanded root name if present, else compute the
plain resolution and store it (no expiry policy, no freshness check). -/
def resolve_cached (env : MetaEnv) (fuel : Nat) (c : ResCache) (root : String) :
    List String × ResCache :=
  match cache_get c root with
  | some o => (o, c)
  | none =>
    let o := plain_resolve env fuel root
    (o, cache_put c root o)


/-! ## Dictionary lemmas -/

theorem dictGet_overwrite {β : Type} (c : List (String × β)) (k : String) (v : β) :
    dictGet (c.map (fun e => if e.1 = k then (e.1, v) else e)) k
      = if k ∈ c.map (·.1) then some v else none := by
  induction c with
  | nil => rfl
  | cons e t ih =>
    by_cases he : e.1 = k
    · simp [dictGet, he]
    · have hk : ¬ k = e.1 := fun hh => he hh.symm
      have hiff : (k ∈ e.1 :: List.map (fun x => x.1) t) ↔ (k ∈ List.map (fun x => x.1) t) := by
        simp [List.mem_cons, hk]
      simp only [List.map_cons, dictGet, if_neg he, ih]
      exact (if_congr hiff rfl rfl).symm

theorem dictGet_overwrite_ne {β : Type} (c : List (String × β)) (k k' : String) (v : β)
    (h : k' ≠ k) :
    dictGet (c.map (fun e => if e.1 = k then (e.1, v) else e)) k' = dictGet c k' := by
  induction c with
  | nil => rfl
  | cons e t ih =>
    by_cases he : e.1 = k
    · have h2 : ¬ e.1 = k' := by rw [he]; exact fun hh => h hh.symm
      have h3 : ¬ k = k' := fun hh => h hh.symm
      simp [dictGet, he, h2, h3, ih]
    · by_cases he' : e.1 = k'
      · simp [dictGet, he, he', h, ih]
      · simp [dictGet, he, he', ih]

theorem dictGet_append_single {β : Type} (c : List (String × β)) (k : String) (v : β)
    (h : ¬ k ∈ c.map (·.1)) : dictGet (c ++ [(k, v)]) k = some v := by
  induction c with
  | nil => simp [dictGet]
  | cons e t ih =>
    simp only [List.map_cons, List.mem_cons, not_or] at h
    have h2 : ¬ e.1 = k := fun hh => h.1 hh.symm
    simpa [dictGet, h2] using ih h.2

theorem dictGet_append_single_ne {β : Type} (c : List (String × β)) (k k' : String) (v : β)
    (h : k' ≠ k) : dictGet (c ++ [(k, v)]) k' = dictGet c k' := by
  induction c with
  | nil =>
    have h3 : ¬ k = k' := fun hh => h hh.symm
    simp [dictGet, h3]
  | cons e t ih =>
    by_cases he : e.1 = k'
    · simp [dictGet, he]
    · simp [dictGet, he, ih]

theorem dictGet_put_self {β : Type} (c : List (String × β)) (k : String) (v : β) :
    dictGet (dictPut c k v) k = some v := by
  unfold dictPut
  by_cases h : k ∈ c.map (·.1)
  · rw [if_pos h, dictGet_overwrite, if_pos h]
  · rw [if_neg h]; exact dictGet_append_single c k v h

theorem dictGet_put_of_ne {β : Type} (c : List (String × β)) (k k' : String) (v : β)
    (h : k' ≠ k) : dictGet (dictPut c k v) k' = dictGet c k' := by
  unfold dictPut
  by_cases hm : k ∈ c.map (·.1)
  · rw [if_pos hm]; exact dictGet_overwrite_ne c k k' v h
  · rw [if_neg hm]; exact dictGet_append_single_ne c k k' v h

/-- A key present in the key list has a successful lookup. -/
theorem dictGet_isSome_of_mem {β : Type} (c : List (String × β)) (k : String)
    (h : k ∈ c.map (·.1)) : ∃ v, dictGet c k = some v := by
  induction c with
  | nil => simp at h
  | cons e t ih =>
    by_cases he : e.1 = k
    · exact ⟨e.2, by simp [dictGet, he]⟩
    · simp only [List.map_cons, List.mem_cons] at h
      rcases h with h | h
      · exact absurd h.symm he
      · simpa [dictGet, he] using ih h

/-! ## C1: direction of the topological order -/

/-- The one-edge graph `gcc requires binutils` as `build_graph_for`
produces it. -/
def c1Graph : Graph := [("gcc", ["binutils"]), ("binutils", [])]

/-- C1: FAILS on the code (code bug).  For the acyclic one-edge graph
`gcc requires binutils`, `topo_sort` returns `["gcc", "binutils"]` — the
dependent strictly before its prerequisite — because the readiness
counter is seeded on the wrong side of the edge (it counts, for each
node, its dependents, so the queue starts from the nodes nothing
requires).  The claim (and the function's own docstring, "dependencies
come BEFORE dependents") requires `binutils` at an earlier index than
`gcc`. -/
theorem c1_topo_sort_emits_dependents_first :
    topo_sort c1Graph = ["gcc", "binutils"] := by decide

/-! ## C2: the dependency closure is not transitive -/

/-- Metadata for the chain `gcc → binutils → zlib`. -/
def envC2 : MetaEnv := fun p =>
  if p = "gcc" then { defaultMeta "gcc" with dependencies := ["binutils"] }
  else if p = "binutils" then { defaultMeta "binutils" with dependencies := ["zlib"] }
  else defaultMeta p

/-- C2: FAILS on the code (code bug).  With `gcc` requiring `binutils`
and `binutils` requiring `zlib`, the graph built from root `gcc` stops at
`binutils`: the worklist test `if d not in self.graph` runs after
`add_edge` has already inserted `d` as a node, so it is always false and
no dependency is ever enqueued.  `zlib` is missing and `binutils` has no
edges, refuting the full-transitive-closure claim. -/
theorem c2_dependencies_of_dependencies_missing :
    build_graph_for envC2 10 ["gcc"] [] = [("gcc", ["binutils"]), ("binutils", [])] ∧
    ¬ ("zlib" ∈ gkeys (build_graph_for envC2 10 ["gcc"] [])) ∧
    getDeps (build_graph_for envC2 10 ["gcc"] []) "binutils" = [] := by
  refine ⟨by decide, by decide, by decide⟩

/-! ## C3: the Resolution Cache round-trip (modelled from the spec) -/

/-- C3: the plain `resolve` path returns the identical cached order on a
second call even if the metadata environment changed in between, and
after `cache-clear` it recomputes from the current metadata. -/
theorem c3_cache_round_trip (env env' : MetaEnv) (fuel : Nat) (c : ResCache)
    (root : String) :
    (resolve_cached env' fuel (resolve_cached env fuel c root).2 root).1
        = (resolve_cached env fuel c root).1 ∧
    (resolve_cached env' fuel (cache_clear (resolve_cached env fuel c root).2) root).1
        = plain_resolve env' fuel root := by
  have hput : ∀ o : List String, cache_get (cache_put c root o) root = some o :=
    fun o => dictGet_put_self c root o
  constructor
  · cases h : cache_get c root with
    | some o => simp [resolve_cached, h]
    | none => simp [resolve_cached, h, hput]
  · simp [resolve_cached, cache_clear, cache_get, dictGet]

/-! ## C9: installed-registry lookup conventions -/

/-- C9 (amended): `is_installed` reports a match exactly when the registry
has the query as an exact key, or a key of the form `name-<anything>`, or
a record whose own `name` field equals the bare query; `installed_version`
reports no version when `is_installed` reports no match.  (The claim's
fourth convention, a key of the form `name/<anything>`, is not matched —
see the counterexample.) -/
theorem c9_installed_lookup_iff (pkg : String) (db : InstalledDb) :
    (is_installed pkg db = true ↔
      ∃ e ∈ db, e.1 = pkg ∨ (∃ r, e.1.data = pkg.data ++ '-' :: r) ∨ e.2.name = pkg) ∧
    (is_installed pkg db = false → installed_version pkg db = "") := by
  have hdata : (pkg ++ "-").data = pkg.data ++ ['-'] := by
    rw [String.data_append]
  constructor
  · unfold is_installed
    rw [List.any_eq_true]
    constructor
    · rintro ⟨e, he, hb⟩
      refine ⟨e, he, ?_⟩
      simp only [Bool.or_eq_true, beq_iff_eq] at hb
      rcases hb with (hb | hb) | hb
      · exact Or.inl hb
      · refine Or.inr (Or.inl ?_)
        rcases (isPrefixOf_eq_true_iff _ _).1 hb with ⟨t, ht⟩
        exact ⟨t, by rw [ht, hdata]; simp⟩
      · exact Or.inr (Or.inr hb)
    · rintro ⟨e, he, hb⟩
      refine ⟨e, he, ?_⟩
      simp only [Bool.or_eq_true, beq_iff_eq]
      rcases hb with hb | ⟨r, hr⟩ | hb
      · exact Or.inl (Or.inl hb)
      · refine Or.inl (Or.inr ?_)
        refine (isPrefixOf_eq_true_iff _ _).2 ⟨r, ?_⟩
        rw [hr, hdata]; simp
      · exact Or.inr hb
  · intro h
    unfold is_installed at h
    unfold installed_version
    have : db.find? (fun e =>
        e.1 == pkg || (pkg ++ "-").data.isPrefixOf e.1.data || e.2.name == pkg) = none := by
      rw [List.find?_eq_none]
      intro x hx
      have hall := List.any_eq_false.mp h
      simpa using hall x hx
    rw [this]

/-- The registry with a single `name/<version>`-style key. -/
def c9Db : InstalledDb := [("foo/1.0", ⟨"bar", "1.0"⟩)]

/-- C9 counterexample: a registry whose only key has the form
`name/<anything>` (record name differing from the query) is NOT reported
installed, refuting the claim's `name/<anything>` convention. -/
theorem c9_slash_convention_not_matched :
    is_installed "foo" c9Db = false ∧
    "foo/1.0".data = "foo".data ++ '/' :: "1.0".data := by
  exact ⟨by decide, rfl⟩

/-! ## C4: the Name Normalizer (spec §4.1)

No normalization function exists in `src/`: `parse_metafile` only
deduplicates the raw dependency strings and `build_graph_for` uses them
verbatim as graph nodes.  The normalizer itself is therefore modelled
from the spec and its algebra proved against that model, while the
raw-specifier behaviour of the builder is proved against the embedded
source. -/

/-- Modelled from the spec: the one-character separators of §4.1
(`space`, `=` — which also begins `==` at the same position — `(`, `[`,
the opening brace, `;`, `,`). -/
def singleSep (c : Char) : Bool :=
  c == ' ' || c == '=' || c == '(' || c == '[' || c == '\x7b' || c == ';' || c == ','

/-- Modelled from the spec: does a separator occurrence of §4.1 start at
this position?  (`>=` and `<=` are recognized by their two leading
characters.) -/
def sepStart : List Char → Bool
  | [] => false
  | c :: rest => singleSep c || ((c == '>' || c == '<') && rest.head? == some '=')

/-- Modelled from the spec: truncate at the first separator occurrence. -/
def dropFromSep : List Char → List Char
  | [] => []
  | c :: cs => if sepStart (c :: cs) then [] else c :: dropFromSep cs

/-- Modelled from the spec: truncate at the first `|`
(alternative-dependency syntax — first alternative wins). -/
def dropFromBar : List Char → List Char
  | [] => []
  | c :: cs => if c = '|' then [] else c :: dropFromBar cs

/-- Surrounding whitespace stripped by the final trim. -/
def isWs (c : Char) : Bool := c == ' ' || c == '\t'

/-- Modelled from the spec: trim surrounding whitespace. -/
def trimChars (cs : List Char) : List Char :=
  ((cs.dropWhile isWs).reverse.dropWhile isWs).reverse

/-- Modelled from the spec: the Name Normalizer of §4.1 — truncate at the
first separator, then at the first `|`, then trim surrounding
whitespace. -/
def normalize_name (s : String) : String :=
  String.mk (trimChars (dropFromBar (dropFromSep s.data)))

/-- No position of the list starts a separator occurrence. -/
def NoSepStart (l : List Char) : Prop := ∀ n, sepStart (l.drop n) = false

theorem dropFromSep_head (cs : List Char) :
    dropFromSep cs = [] ∨ (dropFromSep cs).head? = cs.head? := by
  cases cs with
  | nil => exact Or.inl rfl
  | cons c t =>
    unfold dropFromSep
    by_cases h : sepStart (c :: t) = true
    · rw [if_pos h]; exact Or.inl rfl
    · rw [if_neg h]; exact Or.inr rfl

theorem dropFromBar_head (cs : List Char) :
    dropFromBar cs = [] ∨ (dropFromBar cs).head? = cs.head? := by
  cases cs with
  | nil => exact Or.inl rfl
  | cons c t =>
    unfold dropFromBar
    by_cases h : c = '|'
    · rw [if_pos h]; exact Or.inl rfl
    · rw [if_neg h]; exact Or.inr rfl

/-- A separator occurrence never materializes when the tail is replaced by
a tail with the same head (or cut off): only the head and the next
character matter. -/
theorem sepStart_false_of_head (c : Char) (t t' : List Char)
    (h : sepStart (c :: t) = false)
    (hh : t'.head? = t.head? ∨ t' = []) : sepStart (c :: t') = false := by
  unfold sepStart at h ⊢
  simp only [Bool.or_eq_false_iff, Bool.and_eq_false_iff] at h ⊢
  refine ⟨h.1, ?_⟩
  rcases h.2 with h2 | h2
  · exact Or.inl h2
  · rcases hh with hh | hh
    · rw [hh]; exact Or.inr h2
    · subst hh; right; simp

theorem dropFromSep_noSepStart (cs : List Char) : NoSepStart (dropFromSep cs) := by
  induction cs with
  | nil => intro n; simp [dropFromSep, sepStart]
  | cons c t ih =>
    intro n
    unfold dropFromSep
    by_cases h : sepStart (c :: t) = true
    · rw [if_pos h]
      simp [sepStart]
    · rw [if_neg h]
      cases n with
      | zero =>
        rw [List.drop_zero]
        refine sepStart_false_of_head c t (dropFromSep t) (by simpa using h) ?_
        rcases dropFromSep_head t with h2 | h2
        · exact Or.inr h2
        · exact Or.inl h2
      | succ m => simpa using ih m

theorem dropFromBar_noSepStart (cs : List Char) (h : NoSepStart cs) :
    NoSepStart (dropFromBar cs) := by
  induction cs with
  | nil => intro n; simp [dropFromBar, sepStart]
  | cons c t ih =>
    intro n
    unfold dropFromBar
    by_cases hb : c = '|'
    · rw [if_pos hb]
      simp [sepStart]
    · rw [if_neg hb]
      cases n with
      | zero =>
        rw [List.drop_zero]
        refine sepStart_false_of_head c t (dropFromBar t) ?_ ?_
        · simpa using h 0
        · rcases dropFromBar_head t with h2 | h2
          · exact Or.inr h2
          · exact Or.inl h2
      | succ m =>
        have ht : NoSepStart t := fun k => by simpa using h (k + 1)
        simpa using ih ht m

theorem dropFromBar_no_bar (cs : List Char) : ∀ c ∈ dropFromBar cs, c ≠ '|' := by
  induction cs with
  | nil => intro c hc; simp [dropFromBar] at hc
  | cons d t ih =>
    intro c hc
    unfold dropFromBar at hc
    by_cases hb : d = '|'
    · simp [hb] at hc
    · rw [if_neg hb] at hc
      rcases List.mem_cons.1 hc with rfl | hc
      · exact hb
      · exact ih c hc

/-- Truncating the tail cannot create a separator occurrence. -/
theorem sepStart_take (k : Nat) (l : List Char) (h : sepStart (l.take k) = true) :
    sepStart l = true := by
  cases l with
  | nil => simp [sepStart] at h
  | cons c t =>
    cases k with
    | zero => simp [sepStart] at h
    | succ m =>
      simp only [List.take_succ_cons] at h
      unfold sepStart at h ⊢
      simp only [Bool.or_eq_true, Bool.and_eq_true] at h ⊢
      rcases h with h | ⟨h1, h2⟩
      · exact Or.inl h
      · refine Or.inr ⟨h1, ?_⟩
        cases t with
        | nil => simp at h2
        | cons d u =>
          cases m with
          | zero => simp at h2
          | succ p => simpa using h2

theorem noSepStart_drop (l : List Char) (a : Nat) (h : NoSepStart l) :
    NoSepStart (l.drop a) := by
  intro n
  rw [List.drop_drop]
  exact h _

theorem noSepStart_take (l : List Char) (m : Nat) (h : NoSepStart l) :
    NoSepStart (l.take m) := by
  intro n
  rw [List.drop_take]
  cases hs : sepStart ((l.drop n).take (m - n)) with
  | false => rfl
  | true =>
    have := sepStart_take (m - n) (l.drop n) hs
    rw [h n] at this
    exact absurd this (by simp)

/-- `dropWhile` removes a prefix: the result is a `drop`. -/
theorem dropWhile_eq_drop_ex (p : Char → Bool) (l : List Char) :
    ∃ k, l.dropWhile p = l.drop k := by
  induction l with
  | nil => exact ⟨0, rfl⟩
  | cons c t ih =>
    by_cases h : p c = true
    · rcases ih with ⟨k, hk⟩
      exact ⟨k + 1, by simpa [List.dropWhile, h] using hk⟩
    · exact ⟨0, by simp [List.dropWhile, h]⟩

/-- `trimChars` keeps a contiguous middle slice: it is a `take` of a
`drop`. -/
theorem trimChars_shape (cs : List Char) :
    ∃ a m, trimChars cs = (cs.drop a).take m := by
  unfold trimChars
  rcases dropWhile_eq_drop_ex isWs cs with ⟨a, ha⟩
  rcases dropWhile_eq_drop_ex isWs (cs.dropWhile isWs).reverse with ⟨b, hb⟩
  refine ⟨a, (cs.dropWhile isWs).length - b, ?_⟩
  rw [hb, List.reverse_drop, List.reverse_reverse, List.length_reverse, ha]

theorem trimChars_noSepStart (cs : List Char) (h : NoSepStart cs) :
    NoSepStart (trimChars cs) := by
  rcases trimChars_shape cs with ⟨a, m, hs⟩
  rw [hs]
  exact noSepStart_take _ m (noSepStart_drop _ a h)

theorem trimChars_mem (cs : List Char) (c : Char) (hc : c ∈ trimChars cs) : c ∈ cs := by
  rcases trimChars_shape cs with ⟨a, m, hs⟩
  rw [hs] at hc
  exact List.mem_of_mem_drop (List.mem_of_mem_take hc)

/-- Fixpoint: a list with no separator occurrence is left unchanged. -/
theorem dropFromSep_fix (l : List Char) (h : NoSepStart l) : dropFromSep l = l := by
  induction l with
  | nil => rfl
  | cons c t ih =>
    have h0 : sepStart (c :: t) = false := by simpa using h 0
    have ht : NoSepStart t := fun k => by simpa using h (k + 1)
    simp [dropFromSep, h0, ih ht]

/-- Fixpoint: a list without `|` is left unchanged. -/
theorem dropFromBar_fix (l : List Char) (h : ∀ c ∈ l, c ≠ '|') : dropFromBar l = l := by
  induction l with
  | nil => rfl
  | cons c t ih =>
    have hc : ¬ c = '|' := h c (List.mem_cons_self c t)
    simp [dropFromBar, hc]
    exact ih fun d hd => h d (List.mem_cons_of_mem c hd)

theorem head_dropWhile_not (p : Char → Bool) (l : List Char) (a : Char)
    (h : (l.dropWhile p).head? = some a) : p a = false := by
  induction l with
  | nil => simp [List.dropWhile] at h
  | cons c t ih =>
    by_cases hp : p c = true
    · rw [List.dropWhile_cons_of_pos hp] at h
      exact ih h
    · rw [List.dropWhile_cons_of_neg hp] at h
      simp at h
      rw [← h]
      simpa using hp

theorem dropWhile_fix_of_head (p : Char → Bool) (l : List Char)
    (h : ∀ a, l.head? = some a → p a = false) : l.dropWhile p = l := by
  cases l with
  | nil => rfl
  | cons c t =>
    have := h c rfl
    rw [List.dropWhile_cons_of_neg (by simp [this])]

theorem dropWhile_idem (p : Char → Bool) (l : List Char) :
    (l.dropWhile p).dropWhile p = l.dropWhile p := by
  refine dropWhile_fix_of_head p _ fun a ha => head_dropWhile_not p l a ha

/-- The right trim (`reverse ∘ dropWhile ∘ reverse`). -/
def rtrim (l : List Char) : List Char := (l.reverse.dropWhile isWs).reverse

theorem rtrim_idem (l : List Char) : rtrim (rtrim l) = rtrim l := by
  unfold rtrim
  rw [List.reverse_reverse, dropWhile_idem]

/-- `rtrim` keeps a prefix: it is a `take`. -/
theorem rtrim_shape (l : List Char) : ∃ m, rtrim l = l.take m := by
  rcases dropWhile_eq_drop_ex isWs l.reverse with ⟨b, hb⟩
  refine ⟨l.length - b, ?_⟩
  unfold rtrim
  rw [hb, List.reverse_drop, List.reverse_reverse, List.length_reverse]

theorem head_take (l : List Char) (m : Nat) (hne : l.take m ≠ []) :
    (l.take m).head? = l.head? := by
  cases l with
  | nil => simp at hne
  | cons c t =>
    cases m with
    | zero => simp at hne
    | succ k => simp

/-- After `ltrim`, `rtrim` does not re-expose leading whitespace, so a
second `ltrim` is the identity. -/
theorem ltrim_rtrim_ltrim (l : List Char) :
    (rtrim (l.dropWhile isWs)).dropWhile isWs = rtrim (l.dropWhile isWs) := by
  refine dropWhile_fix_of_head isWs _ fun a ha => ?_
  rcases rtrim_shape (l.dropWhile isWs) with ⟨m, hm⟩
  rw [hm] at ha
  have hne : (l.dropWhile isWs).take m ≠ [] := by
    intro hnil; rw [hnil] at ha; simp at ha
  rw [head_take _ m hne] at ha
  exact head_dropWhile_not isWs l a ha

theorem trimChars_idem (cs : List Char) : trimChars (trimChars cs) = trimChars cs := by
  show rtrim ((rtrim (cs.dropWhile isWs)).dropWhile isWs) = rtrim (cs.dropWhile isWs)
  rw [ltrim_rtrim_ltrim, rtrim_idem]

/-- Metadata where `app` declares the raw specifier `pkg>=1.2`. -/
def envC4 : MetaEnv := fun p =>
  if p = "app" then { defaultMeta "app" with dependencies := ["pkg>=1.2"] }
  else defaultMeta p

/-- C4 (amended): the Name Normalizer modelled from spec §4.1 is a pure
total function, idempotent (so an already-normalized name is returned
unchanged), maps the empty string to itself and the three example
specifiers to `"pkg"`; but in the source the graph builder performs no
normalization at all — a raw specifier becomes a graph node verbatim. -/
theorem c4_normalizer_amended :
    (∀ s : String, normalize_name (normalize_name s) = normalize_name s) ∧
    normalize_name "" = "" ∧
    normalize_name "pkg" = "pkg" ∧
    normalize_name "pkg (>= 1.2)" = "pkg" ∧
    normalize_name "pkg>=1.2" = "pkg" ∧
    normalize_name "pkg | alt" = "pkg" ∧
    gkeys (build_graph_for envC4 10 ["app"] []) = ["app", "pkg>=1.2"] := by
  refine ⟨?_, by decide, by decide, by decide, by decide, by decide, by decide⟩
  intro s
  unfold normalize_name
  have h1 : NoSepStart (trimChars (dropFromBar (dropFromSep s.data))) :=
    trimChars_noSepStart _ (dropFromBar_noSepStart _ (dropFromSep_noSepStart s.data))
  have h2 : ∀ c ∈ trimChars (dropFromBar (dropFromSep s.data)), c ≠ '|' :=
    fun c hc => dropFromBar_no_bar (dropFromSep s.data) c (trimChars_mem _ c hc)
  show String.mk (trimChars (dropFromBar (dropFromSep (trimChars (dropFromBar (dropFromSep s.data)))))) = _
  rw [dropFromSep_fix _ h1, dropFromBar_fix _ h2, trimChars_idem]

/-- C4 counterexample: the raw specifier `pkg>=1.2` itself is a node of
the graph built from root `app`, and the bare name `pkg` is not — raw
dependency specifiers are NOT normalized before being used as graph
nodes. -/
theorem c4_raw_specifier_becomes_node :
    "pkg>=1.2" ∈ gkeys (build_graph_for envC4 10 ["app"] []) ∧
    ¬ ("pkg" ∈ gkeys (build_graph_for envC4 10 ["app"] [])) := by
  exact ⟨by decide, by decide⟩

/-! ## C6: completeness of the produced order

Machinery: every graph the resolver builds has duplicate-free keys and no
dangling edge; under those two invariants the Kahn loop emits a
duplicate-free subset of the keys, and the cycle fallback tops it up to a
permutation of the keys. -/

/-- No edge dangles: every dependency recorded in the graph is a key. -/
def DangleFree (g : Graph) : Prop := ∀ e ∈ g, ∀ d ∈ e.2, d ∈ gkeys g

theorem getDeps_subset (g : Graph) (n : String) (h : DangleFree g) :
    ∀ d ∈ getDeps g n, d ∈ gkeys g := by
  intro d hd
  unfold getDeps at hd
  cases hf : g.find? (fun e => e.1 == n) with
  | none => rw [hf] at hd; simp at hd
  | some e =>
    rw [hf] at hd
    exact h e (List.mem_of_find?_eq_some hf) d hd

/-! Counter-table lemmas. -/

theorem bump_keys_of_mem (l : List (String × Int)) (d : String)
    (h : d ∈ l.map (·.1)) : (bump l d).map (·.1) = l.map (·.1) := by
  induction l with
  | nil => simp at h
  | cons e t ih =>
    rcases e with ⟨k, v⟩
    by_cases hk : k = d
    · simp [bump, hk]
    · simp only [List.map_cons, List.mem_cons] at h
      rcases h with h | h
      · exact absurd h.symm hk
      · simp [bump, hk, ih h]

theorem bump_nonneg (l : List (String × Int)) (d : String)
    (h : ∀ e ∈ l, 0 ≤ e.2) : ∀ e ∈ bump l d, 0 ≤ e.2 := by
  induction l with
  | nil =>
    intro e he
    simp only [bump, List.mem_singleton] at he
    simp [he]
  | cons f t ih =>
    rcases f with ⟨k, v⟩
    intro e he
    by_cases hk : k = d
    · simp only [bump, if_pos hk, List.mem_cons] at he
      rcases he with rfl | he
      · have := h (k, v) (List.mem_cons_self _ _)
        simp at this ⊢
        omega
      · exact h e (List.mem_cons_of_mem _ he)
    · simp only [bump, if_neg hk, List.mem_cons] at he
      rcases he with rfl | he
      · exact h (k, v) (List.mem_cons_self _ _)
      · exact ih (fun x hx => h x (List.mem_cons_of_mem _ hx)) e he

theorem foldBump_keys (ds : List String) (acc : List (String × Int))
    (h : ∀ d ∈ ds, d ∈ acc.map (·.1)) :
    (ds.foldl bump acc).map (·.1) = acc.map (·.1) := by
  induction ds generalizing acc with
  | nil => rfl
  | cons d t ih =>
    rw [List.foldl_cons]
    have hk := bump_keys_of_mem acc d (h d (List.mem_cons_self _ _))
    rw [ih (bump acc d) (fun x hx => by rw [hk]; exact h x (List.mem_cons_of_mem _ hx)), hk]

theorem foldBump_nonneg (ds : List String) (acc : List (String × Int))
    (h : ∀ e ∈ acc, 0 ≤ e.2) : ∀ e ∈ ds.foldl bump acc, 0 ≤ e.2 := by
  induction ds generalizing acc with
  | nil => exact h
  | cons d t ih => exact ih (bump acc d) (bump_nonneg acc d h)

theorem initIndeg_keys (g : Graph) (hdf : DangleFree g) :
    (initIndeg g).map (·.1) = gkeys g := by
  unfold initIndeg
  have base : ((gkeys g).map (fun n => (n, (0 : Int)))).map (·.1) = gkeys g := by
    rw [List.map_map]
    have hid : ((fun (x : String × Int) => x.1) ∘ fun n => (n, (0 : Int))) = id := by
      funext n; rfl
    rw [hid, List.map_id]
  suffices h : ∀ (entries : List (String × List String)) (acc : List (String × Int)),
      (∀ e ∈ entries, ∀ d ∈ e.2, d ∈ acc.map (·.1)) →
      (entries.foldl (fun acc e => e.2.foldl bump acc) acc).map (·.1) = acc.map (·.1) by
    rw [h g _ (fun e he d hd => by rw [base]; exact hdf e he d hd), base]
  intro entries
  induction entries with
  | nil => intro acc _; rfl
  | cons e t ih =>
    intro acc hacc
    rw [List.foldl_cons]
    have hk := foldBump_keys e.2 acc (hacc e (List.mem_cons_self _ _))
    rw [ih _ (fun x hx d hd => by rw [hk]; exact hacc x (List.mem_cons_of_mem _ hx) d hd), hk]

theorem initIndeg_nonneg (g : Graph) : ∀ e ∈ initIndeg g, 0 ≤ e.2 := by
  unfold initIndeg
  suffices h : ∀ (entries : List (String × List String)) (acc : List (String × Int)),
      (∀ e ∈ acc, 0 ≤ e.2) →
      ∀ e ∈ entries.foldl (fun acc e => e.2.foldl bump acc) acc, 0 ≤ e.2 by
    refine h g _ ?_
    intro e he
    rcases List.mem_map.1 he with ⟨n, _, rfl⟩
    simp
  intro entries
  induction entries with
  | nil => intro acc h; exact h
  | cons e t ih =>
    intro acc hacc
    exact ih _ (foldBump_nonneg e.2 acc hacc)

theorem getCount_some_mem (l : List (String × Int)) (m : String) (v : Int)
    (h : getCount l m = some v) : (m, v) ∈ l := by
  unfold getCount at h
  cases hf : l.find? (fun e => e.1 == m) with
  | none => rw [hf] at h; simp at h
  | some e =>
    rw [hf] at h
    have h1 := List.find?_some hf
    have h2 := List.mem_of_find?_eq_some hf
    simp only [beq_iff_eq] at h1
    simp only [Option.some.injEq] at h
    have : e = (m, v) := by
      rcases e with ⟨a, b⟩
      simp_all
    rwa [this] at h2

theorem getCount_decKey_self (l : List (String × Int)) (m : String) :
    getCount (decKey l m) m = (getCount l m).map (fun v => v - 1) := by
  induction l with
  | nil => rfl
  | cons e t ih =>
    by_cases he : e.1 = m
    · simp [decKey, getCount, List.find?, he]
    · have he2 : (e.1 == m) = false := by simp [he]
      simp only [decKey, List.map_cons, if_neg he]
      simp only [getCount, List.find?, he2] at ih ⊢
      exact ih

theorem getCount_decKey_ne (l : List (String × Int)) (m m' : String) (h : m' ≠ m) :
    getCount (decKey l m) m' = getCount l m' := by
  induction l with
  | nil => rfl
  | cons e t ih =>
    by_cases he : e.1 = m
    · have hmm : ¬ m = m' := fun hh => h hh.symm
      have he2 : (e.1 == m') = false := by simp [he, hmm]
      have he3 : ((e.1, e.2 - 1).1 == m') = false := he2
      simp only [decKey, List.map_cons, if_pos he]
      simp only [getCount, List.find?, he2, he3] at ih ⊢
      exact ih
    · simp only [decKey, List.map_cons, if_neg he]
      by_cases he' : e.1 = m'
      · simp [getCount, List.find?, he']
      · have he2 : (e.1 == m') = false := by simp [he']
        simp only [getCount, List.find?, he2] at ih ⊢
        exact ih

/-- With duplicate-free keys, membership in the zero-count seed queue is
exactly a zero lookup. -/
theorem mem_zero_filter_iff (l : List (String × Int)) (hnd : (l.map (·.1)).Nodup)
    (m : String) :
    m ∈ (l.filter (fun e => e.2 = 0)).map (·.1) ↔ getCount l m = some 0 := by
  induction l with
  | nil => simp [getCount]
  | cons e t ih =>
    simp only [List.map_cons, List.nodup_cons] at hnd
    by_cases he : e.1 = m
    · have hcount : getCount (e :: t) m = some e.2 := by
        simp [getCount, List.find?, he]
      rw [hcount]
      by_cases hv : e.2 = 0
      · simp only [List.filter_cons, hv]
        simp [he, hv]
      · constructor
        · intro hmem
          simp only [List.filter_cons] at hmem
          rw [if_neg (by simpa using hv)] at hmem
          rcases List.mem_map.1 hmem with ⟨x, hx, hx1⟩
          exfalso
          refine hnd.1 ?_
          rw [he]
          rw [← hx1]
          exact List.mem_map_of_mem _ (List.mem_of_mem_filter hx)
        · intro hh
          exfalso
          exact hv (by simpa using hh)
    · have he2 : (e.1 == m) = false := by simp [he]
      have hcount : getCount (e :: t) m = getCount t m := by
        simp [getCount, List.find?, he2]
      rw [hcount, ← ih hnd.2]
      simp only [List.filter_cons]
      by_cases hv : e.2 = 0
      · rw [if_pos (by simpa using hv)]
        have hmm : ¬ m = e.1 := fun hh => he hh.symm
        simp [hmm]
      · rw [if_neg (by simpa using hv)]

/-! Kahn-loop invariant machinery. -/

theorem getCount_eq_none_iff (l : List (String × Int)) (m : String) :
    getCount l m = none ↔ ∀ e ∈ l, ¬ e.1 = m := by
  unfold getCount
  constructor
  · intro h e he hem
    cases hf : l.find? (fun e => e.1 == m) with
    | some x => rw [hf] at h; simp at h
    | none =>
      have := List.find?_eq_none.1 hf e he
      simp [hem] at this
  · intro h
    cases hf : l.find? (fun e => e.1 == m) with
    | some x =>
      have h1 := List.find?_some hf
      have h2 := List.mem_of_find?_eq_some hf
      simp only [beq_iff_eq] at h1
      exact absurd h1 (h x h2)
    | none => rfl

theorem decKey_no_key (l : List (String × Int)) (m : String)
    (h : ∀ e ∈ l, ¬ e.1 = m) : decKey l m = l := by
  induction l with
  | nil => rfl
  | cons e t ih =>
    unfold decKey
    rw [List.map_cons, if_neg (h e (List.mem_cons_self _ _))]
    have ht := ih (fun x hx => h x (List.mem_cons_of_mem _ hx))
    unfold decKey at ht
    rw [ht]

/-- The loop invariant of the Kahn phase: the emitted order plus the
pending queue is duplicate-free, stays inside the node set, and a node is
in it exactly when its counter has been driven to zero or below. -/
def KahnInv (g : Graph) (order q : List String) (indeg : List (String × Int)) : Prop :=
  (order ++ q).Nodup ∧
  (∀ x ∈ order ++ q, x ∈ gkeys g) ∧
  (∀ m : String, m ∈ order ++ q ↔ ∃ v, getCount indeg m = some v ∧ v ≤ 0)

theorem kahnDec_inv (g : Graph) (order q : List String) (indeg : List (String × Int))
    (m : String) (hm : m ∈ gkeys g) (h : KahnInv g order q indeg) :
    KahnInv g order (kahnDec (indeg, q) m).2 (kahnDec (indeg, q) m).1 := by
  obtain ⟨h1, h2, h3⟩ := h
  show KahnInv g order (q ++ if getCount (decKey indeg m) m = some 0 then [m] else [])
      (decKey indeg m)
  cases hc : getCount indeg m with
  | none =>
    have hnk := (getCount_eq_none_iff indeg m).1 hc
    have hdec : decKey indeg m = indeg := decKey_no_key indeg m hnk
    rw [hdec, hc]
    simp only [if_neg (by simp : ¬ (none : Option Int) = some 0), List.append_nil]
    exact ⟨h1, h2, h3⟩
  | some v =>
    have hdec : getCount (decKey indeg m) m = some (v - 1) := by
      rw [getCount_decKey_self, hc]; rfl
    by_cases hv : v = 1
    · have hcond : getCount (decKey indeg m) m = some 0 := by rw [hdec, hv]; rfl
      rw [if_pos hcond]
      have hnotmem : ¬ m ∈ order ++ q := by
        intro hmem
        rcases (h3 m).1 hmem with ⟨v', hv', hle⟩
        rw [hc] at hv'
        simp only [Option.some.injEq] at hv'
        omega
      refine ⟨?_, ?_, ?_⟩
      · rw [← List.append_assoc]
        rw [List.nodup_append]
        refine ⟨h1, List.nodup_singleton m, ?_⟩
        intro x hx hx'
        simp only [List.mem_singleton] at hx'
        subst hx'
        exact hnotmem hx
      · intro x hx
        rw [← List.append_assoc] at hx
        rcases List.mem_append.1 hx with hx | hx
        · exact h2 x hx
        · simp only [List.mem_singleton] at hx; subst hx; exact hm
      · intro m'
        by_cases hmm : m' = m
        · subst hmm
          constructor
          · intro _; exact ⟨0, by rw [hdec, hv]; rfl, le_refl 0⟩
          · intro _
            rw [← List.append_assoc]
            exact List.mem_append.2 (Or.inr (List.mem_singleton.2 rfl))
        · have hcnt : getCount (decKey indeg m) m' = getCount indeg m' :=
            getCount_decKey_ne indeg m m' hmm
          rw [← List.append_assoc]
          constructor
          · intro hx
            rcases List.mem_append.1 hx with hx | hx
            · rcases (h3 m').1 hx with ⟨v', hv', hle⟩
              exact ⟨v', by rw [hcnt]; exact hv', hle⟩
            · simp only [List.mem_singleton] at hx; exact absurd hx hmm
          · rintro ⟨v', hv', hle⟩
            rw [hcnt] at hv'
            exact List.mem_append.2 (Or.inl ((h3 m').2 ⟨v', hv', hle⟩))
    · have hcond : ¬ getCount (decKey indeg m) m = some 0 := by
        rw [hdec]
        intro hh
        simp only [Option.some.injEq] at hh
        omega
      rw [if_neg hcond, List.append_nil]
      refine ⟨h1, h2, ?_⟩
      intro m'
      by_cases hmm : m' = m
      · subst hmm
        rw [h3 m']
        constructor
        · rintro ⟨v', hv', hle⟩
          rw [hc] at hv'
          simp only [Option.some.injEq] at hv'
          exact ⟨v' - 1, by rw [hdec, hv'], by omega⟩
        · rintro ⟨v', hv', hle⟩
          rw [hdec] at hv'
          simp only [Option.some.injEq] at hv'
          refine ⟨v, hc, ?_⟩
          omega
      · have hcnt : getCount (decKey indeg m) m' = getCount indeg m' :=
          getCount_decKey_ne indeg m m' hmm
        rw [h3 m', hcnt]

theorem kahnFold_inv (g : Graph) (deps : List String) :
    ∀ (q : List String) (indeg : List (String × Int)) (order : List String),
      (∀ m ∈ deps, m ∈ gkeys g) → KahnInv g order q indeg →
      KahnInv g order (deps.foldl kahnDec (indeg, q)).2 (deps.foldl kahnDec (indeg, q)).1 := by
  induction deps with
  | nil => intro q indeg order _ h; exact h
  | cons m ds ih =>
    intro q indeg order hdeps h
    rw [List.foldl_cons]
    have h' := kahnDec_inv g order q indeg m (hdeps m (List.mem_cons_self _ _)) h
    exact ih _ _ order (fun x hx => hdeps x (List.mem_cons_of_mem _ hx)) h'

theorem kahnLoop_nodup_subset (g : Graph) (hdf : DangleFree g) :
    ∀ (fuel : Nat) (q : List String) (indeg : List (String × Int)) (order : List String),
      KahnInv g order q indeg →
      (kahnLoop g fuel q indeg order).Nodup ∧
      ∀ x ∈ kahnLoop g fuel q indeg order, x ∈ gkeys g := by
  intro fuel
  induction fuel with
  | zero =>
    intro q indeg order h
    simp only [kahnLoop]
    refine ⟨List.Nodup.of_append_left h.1, fun x hx => h.2.1 x (List.mem_append.2 (Or.inl hx))⟩
  | succ fuel ih =>
    intro q indeg order h
    cases q with
    | nil =>
      simp only [kahnLoop]
      refine ⟨List.Nodup.of_append_left h.1, fun x hx => h.2.1 x (List.mem_append.2 (Or.inl hx))⟩
    | cons n q' =>
      simp only [kahnLoop]
      have hshift : KahnInv g (order ++ [n]) q' indeg := by
        obtain ⟨h1, h2, h3⟩ := h
        have heq : (order ++ [n]) ++ q' = order ++ n :: q' := by
          rw [List.append_assoc, List.singleton_append]
        unfold KahnInv
        rw [heq]
        exact ⟨h1, h2, h3⟩
      have h' := kahnFold_inv g (getDeps g n) q' indeg (order ++ [n])
        (getDeps_subset g n hdf) hshift
      exact ih _ _ _ h'

/-- The cycle fallback turns any duplicate-free sub-order into a
permutation of the keys. -/
theorem append_filter_perm (order keys : List String) (h1 : order.Nodup)
    (h2 : ∀ x ∈ order, x ∈ keys) (h3 : keys.Nodup) :
    (order ++ keys.filter (fun n => ¬ (n ∈ order))).Perm keys := by
  rw [List.perm_iff_count]
  intro a
  rw [List.count_append]
  by_cases ha : a ∈ order
  · rw [List.count_eq_one_of_mem h1 ha]
    have hnm : ¬ a ∈ keys.filter (fun n => ¬ (n ∈ order)) := by
      simp [List.mem_filter, ha]
    rw [List.count_eq_zero_of_not_mem hnm, List.count_eq_one_of_mem h3 (h2 a ha)]
  · have h4 : List.count a (keys.filter fun n => ¬ (n ∈ order)) = List.count a keys :=
      List.count_filter (by simpa using ha)
    rw [List.count_eq_zero_of_not_mem ha, h4]
    omega

theorem topo_sort_perm (g : Graph) (hnd : (gkeys g).Nodup) (hdf : DangleFree g) :
    (topo_sort g).Perm (gkeys g) := by
  have hkeys := initIndeg_keys g hdf
  have hnn := initIndeg_nonneg g
  have hndk : ((initIndeg g).map (·.1)).Nodup := by rw [hkeys]; exact hnd
  have hinv : KahnInv g []
      (((initIndeg g).filter (fun e => e.2 = 0)).map (·.1)) (initIndeg g) := by
    refine ⟨?_, ?_, ?_⟩
    · simp only [List.nil_append]
      exact List.Nodup.sublist (List.Sublist.map _ (List.filter_sublist _)) hndk
    · intro x hx
      simp only [List.nil_append] at hx
      rcases List.mem_map.1 hx with ⟨e, he, rfl⟩
      rw [← hkeys]
      exact List.mem_map_of_mem _ (List.mem_of_mem_filter he)
    · intro m
      simp only [List.nil_append]
      rw [mem_zero_filter_iff _ hndk]
      constructor
      · intro h; exact ⟨0, h, le_refl 0⟩
      · rintro ⟨v, hv, hle⟩
        have hmem := getCount_some_mem _ _ _ hv
        have hge := hnn (m, v) hmem
        simp only at hge
        have hv0 : v = 0 := le_antisymm hle hge
        rw [hv0] at hv
        exact hv
  have hmain := kahnLoop_nodup_subset g hdf (gkeys g).length
    (((initIndeg g).filter (fun e => e.2 = 0)).map (·.1)) (initIndeg g) [] hinv
  show (if (kahnLoop g (gkeys g).length
        (((initIndeg g).filter (fun e => e.2 = 0)).map (·.1)) (initIndeg g) []).length
        ≠ (gkeys g).length then _ else _ : List String).Perm (gkeys g)
  by_cases hlen : (kahnLoop g (gkeys g).length
      (((initIndeg g).filter (fun e => e.2 = 0)).map (·.1)) (initIndeg g) []).length
      ≠ (gkeys g).length
  · rw [if_pos hlen]
    exact append_filter_perm _ (gkeys g) hmain.1 hmain.2 hnd
  · rw [if_neg hlen]
    push_neg at hlen
    exact (List.Nodup.subperm hmain.1 (fun x hx => hmain.2 x hx)).perm_of_length_le
      (le_of_eq hlen.symm)

theorem tier_sort_perm (env : MetaEnv) (nodes : List String) :
    (tier_sort env nodes).Perm nodes := by
  unfold tier_sort
  exact List.perm_insertionSort _ nodes

/-- C6: for every well-formed graph (duplicate-free keys, no dangling
edge — invariants of every graph the builder produces), with or without
cycles, the pipeline order (topological sort then stable tier
classification) is a permutation of the node set: it contains exactly the
nodes of the graph, each exactly once. -/
theorem c6_order_is_node_set_permutation (env : MetaEnv) (g : Graph)
    (hnd : (gkeys g).Nodup) (hdf : DangleFree g) :
    (tier_sort env (topo_sort g)).Perm (gkeys g) :=
  (tier_sort_perm env (topo_sort g)).trans (topo_sort_perm g hnd hdf)

/-- A cyclic three-node graph exercising the fallback path. -/
def c6Graph : Graph := [("A", ["B"]), ("B", ["A"]), ("C", [])]

/-- C6 witness: the completeness theorem instantiated on a concrete graph
containing a two-cycle. -/
theorem c6_order_is_node_set_permutation_witness :
    (gkeys c6Graph).Nodup ∧ DangleFree c6Graph ∧
    (tier_sort defaultMeta (topo_sort c6Graph)).Perm (gkeys c6Graph) :=
  ⟨by decide, by unfold DangleFree; decide,
    c6_order_is_node_set_permutation defaultMeta c6Graph (by decide)
      (by unfold DangleFree; decide)⟩

/-! ## C5: groups and the final order

Machinery: how the builder grows the key set, plus the two structural
invariants (duplicate-free keys, no dangling edges) of every graph it
produces. -/

theorem gkeys_addDepTo (g : Graph) (p d : String) : gkeys (addDepTo g p d) = gkeys g := by
  unfold addDepTo gkeys
  induction g with
  | nil => rfl
  | cons e t ih =>
    rw [List.map_cons, List.map_cons, ih]
    by_cases he : e.1 = p
    · rw [if_pos he]
      simp
    · rw [if_neg he]
      simp

theorem mem_gkeys_add_node (g : Graph) (p x : String) :
    x ∈ gkeys (add_node g p) ↔ x ∈ gkeys g ∨ x = p := by
  unfold add_node
  by_cases h : p ∈ gkeys g
  · rw [if_pos h]
    constructor
    · exact Or.inl
    · rintro (hx | rfl)
      · exact hx
      · exact h
  · rw [if_neg h]
    have hgk : gkeys (g ++ [(p, [])]) = gkeys g ++ [p] := by
      unfold gkeys
      rw [List.map_append]
      rfl
    rw [hgk, List.mem_append, List.mem_singleton]

theorem mem_gkeys_add_edge (g : Graph) (p d x : String) :
    x ∈ gkeys (add_edge g p d) ↔ x ∈ gkeys g ∨ x = p ∨ x = d := by
  unfold add_edge
  rw [gkeys_addDepTo, mem_gkeys_add_node, mem_gkeys_add_node]
  tauto

theorem depFold_keys_sub (comp : String) (ds : List String) :
    ∀ (acc : Graph × List String) (x : String),
      x ∈ gkeys (ds.foldl (depStep comp) acc).1 →
        x ∈ gkeys acc.1 ∨ x = comp ∨ x ∈ ds := by
  induction ds with
  | nil => intro acc x h; exact Or.inl h
  | cons d t ih =>
    intro acc x h
    rw [List.foldl_cons] at h
    rcases ih _ x h with h' | h' | h'
    · have hfst : (depStep comp acc d).1 = add_edge acc.1 comp d := rfl
      rw [hfst, mem_gkeys_add_edge] at h'
      rcases h' with h' | h' | h'
      · exact Or.inl h'
      · exact Or.inr (Or.inl h')
      · exact Or.inr (Or.inr (by rw [h']; exact List.mem_cons_self _ _))
    · exact Or.inr (Or.inl h')
    · exact Or.inr (Or.inr (List.mem_cons_of_mem _ h'))

theorem depFold_keys_mono (comp : String) (ds : List String) :
    ∀ (acc : Graph × List String) (x : String),
      x ∈ gkeys acc.1 → x ∈ gkeys (ds.foldl (depStep comp) acc).1 := by
  induction ds with
  | nil => intro acc x h; exact h
  | cons d t ih =>
    intro acc x h
    rw [List.foldl_cons]
    apply ih
    show x ∈ gkeys (add_edge acc.1 comp d)
    rw [mem_gkeys_add_edge]
    exact Or.inl h

theorem depFold_deps_mem (comp : String) (ds : List String) :
    ∀ (acc : Graph × List String) (d : String), d ∈ ds →
      d ∈ gkeys (ds.foldl (depStep comp) acc).1 := by
  induction ds with
  | nil => intro acc d h; simp at h
  | cons d0 t ih =>
    intro acc d h
    rw [List.foldl_cons]
    rcases List.mem_cons.1 h with rfl | h
    · apply depFold_keys_mono
      show d ∈ gkeys (add_edge acc.1 comp d)
      rw [mem_gkeys_add_edge]
      exact Or.inr (Or.inr rfl)
    · exact ih _ d h

theorem processComp_fst (env : MetaEnv) (g : Graph) (comp : String) :
    (processComp env g comp).1
      = ((env comp).dependencies.foldl (depStep comp) (add_node g comp, [])).1 := by
  simp only [processComp]
  by_cases h : (env comp).is_group = true
  · rw [if_pos h]
  · rw [if_neg h]

theorem mem_gkeys_processComp (env : MetaEnv) (g : Graph) (comp x : String) :
    x ∈ gkeys (processComp env g comp).1 ↔
      x ∈ gkeys g ∨ x = comp ∨ x ∈ (env comp).dependencies := by
  rw [processComp_fst]
  constructor
  · intro h
    rcases depFold_keys_sub comp _ _ x h with h' | h' | h'
    · rw [mem_gkeys_add_node] at h'
      tauto
    · exact Or.inr (Or.inl h')
    · exact Or.inr (Or.inr h')
  · rintro (h | h | h)
    · exact depFold_keys_mono comp _ _ x (by rw [mem_gkeys_add_node]; exact Or.inl h)
    · exact depFold_keys_mono comp _ _ x (by rw [mem_gkeys_add_node]; exact Or.inr h)
    · exact depFold_deps_mem comp _ _ x h

theorem processComps_keys_mono (env : MetaEnv) (comps : List String) :
    ∀ (acc : Graph × List String) (x : String), x ∈ gkeys acc.1 →
      x ∈ gkeys (comps.foldl (compStep env) acc).1 := by
  induction comps with
  | nil => intro acc x h; exact h
  | cons c t ih =>
    intro acc x h
    rw [List.foldl_cons]
    apply ih
    show x ∈ gkeys (processComp env acc.1 c).1
    rw [mem_gkeys_processComp]
    exact Or.inl h

theorem processComps_comps_mem (env : MetaEnv) (comps : List String) :
    ∀ (acc : Graph × List String) (c : String), c ∈ comps →
      c ∈ gkeys (comps.foldl (compStep env) acc).1 := by
  induction comps with
  | nil => intro acc c h; simp at h
  | cons c0 t ih =>
    intro acc c h
    rw [List.foldl_cons]
    rcases List.mem_cons.1 h with rfl | h
    · apply processComps_keys_mono env t
      show c ∈ gkeys (processComp env acc.1 c).1
      rw [mem_gkeys_processComp]
      exact Or.inr (Or.inl rfl)
    · exact ih _ c h

theorem processComps_avoids (env : MetaEnv) (G : String) (comps : List String)
    (hc : ∀ c ∈ comps, ¬ c = G ∧ ¬ G ∈ (env c).dependencies) :
    ∀ (acc : Graph × List String), ¬ G ∈ gkeys acc.1 →
      ¬ G ∈ gkeys (comps.foldl (compStep env) acc).1 := by
  induction comps with
  | nil => intro acc h; exact h
  | cons c t ih =>
    intro acc h
    rw [List.foldl_cons]
    apply ih (fun x hx => hc x (List.mem_cons_of_mem _ hx))
    show ¬ G ∈ gkeys (processComp env acc.1 c).1
    rw [mem_gkeys_processComp]
    rintro (hG | hG | hG)
    · exact h hG
    · exact (hc c (List.mem_cons_self _ _)).1 hG.symm
    · exact (hc c (List.mem_cons_self _ _)).2 hG

theorem build_keys_mono (env : MetaEnv) :
    ∀ (fuel : Nat) (wl : List String) (g : Graph) (x : String),
      x ∈ gkeys g → x ∈ gkeys (build_graph_for env fuel wl g) := by
  intro fuel
  induction fuel with
  | zero => intro wl g x h; simpa only [build_graph_for] using h
  | succ fuel ih =>
    intro wl g x h
    cases wl with
    | nil => simpa only [build_graph_for] using h
    | cons cur rest =>
      simp only [build_graph_for]
      apply ih
      exact processComps_keys_mono env (expand_group env cur) (g, []) x h

theorem build_avoids (env : MetaEnv) (G : String)
    (hg : (env G).is_group = true)
    (hdep : ∀ p, ¬ G ∈ (env p).dependencies)
    (hcomp : ∀ p, ¬ G ∈ (env p).components) :
    ∀ (fuel : Nat) (wl : List String) (g : Graph),
      ¬ G ∈ gkeys g → ¬ G ∈ gkeys (build_graph_for env fuel wl g) := by
  have hexp : ∀ cur c, c ∈ expand_group env cur → ¬ c = G := by
    intro cur c hc hcg
    subst hcg
    unfold expand_group at hc
    by_cases hcur : (env cur).is_group = true
    · rw [if_pos hcur] at hc
      exact hcomp cur hc
    · rw [if_neg hcur] at hc
      simp only [List.mem_singleton] at hc
      subst hc
      exact hcur hg
  intro fuel
  induction fuel with
  | zero => intro wl g h; simpa only [build_graph_for] using h
  | succ fuel ih =>
    intro wl g h
    cases wl with
    | nil => simpa only [build_graph_for] using h
    | cons cur rest =>
      simp only [build_graph_for]
      apply ih
      refine processComps_avoids env G (expand_group env cur) ?_ (g, []) h
      intro c hc
      exact ⟨hexp cur c hc, hdep c⟩

/-! Structural invariants of built graphs. -/

theorem add_node_nodup (g : Graph) (p : String) (h : (gkeys g).Nodup) :
    (gkeys (add_node g p)).Nodup := by
  unfold add_node
  by_cases hp : p ∈ gkeys g
  · rw [if_pos hp]; exact h
  · rw [if_neg hp]
    unfold gkeys
    rw [List.map_append, List.nodup_append]
    refine ⟨h, by simp, ?_⟩
    intro x hx hx'
    simp only [List.map_cons, List.map_nil, List.mem_singleton] at hx'
    subst hx'
    exact hp hx

theorem add_edge_nodup (g : Graph) (p d : String) (h : (gkeys g).Nodup) :
    (gkeys (add_edge g p d)).Nodup := by
  unfold add_edge
  rw [gkeys_addDepTo]
  exact add_node_nodup _ d (add_node_nodup _ p h)

theorem add_node_df (g : Graph) (p : String) (h : DangleFree g) :
    DangleFree (add_node g p) := by
  intro e he d hd
  rw [mem_gkeys_add_node]
  unfold add_node at he
  by_cases hp : p ∈ gkeys g
  · rw [if_pos hp] at he
    exact Or.inl (h e he d hd)
  · rw [if_neg hp] at he
    rcases List.mem_append.1 he with he | he
    · exact Or.inl (h e he d hd)
    · simp only [List.mem_singleton] at he
      subst he
      simp at hd

theorem addDepTo_df (g : Graph) (p d : String) (h : DangleFree g)
    (hd : d ∈ gkeys g) : DangleFree (addDepTo g p d) := by
  intro e' he' x hx
  rw [gkeys_addDepTo]
  unfold addDepTo at he'
  rcases List.mem_map.1 he' with ⟨e, he, rfl⟩
  by_cases hep : e.1 = p
  · rw [if_pos hep] at hx
    simp only at hx
    by_cases hde : d ∈ e.2
    · rw [if_pos hde] at hx
      exact h e he x hx
    · rw [if_neg hde] at hx
      rcases List.mem_append.1 hx with hx | hx
      · exact h e he x hx
      · simp only [List.mem_singleton] at hx
        subst hx
        exact hd
  · rw [if_neg hep] at hx
    exact h e he x hx

theorem add_edge_df (g : Graph) (p d : String) (h : DangleFree g) :
    DangleFree (add_edge g p d) := by
  unfold add_edge
  refine addDepTo_df _ p d (add_node_df _ d (add_node_df _ p h)) ?_
  rw [mem_gkeys_add_node]
  exact Or.inr rfl

theorem depFold_nodup_df (comp : String) (ds : List String) :
    ∀ (acc : Graph × List String), (gkeys acc.1).Nodup → DangleFree acc.1 →
      (gkeys (ds.foldl (depStep comp) acc).1).Nodup ∧
        DangleFree (ds.foldl (depStep comp) acc).1 := by
  induction ds with
  | nil => intro acc h1 h2; exact ⟨h1, h2⟩
  | cons d t ih =>
    intro acc h1 h2
    rw [List.foldl_cons]
    exact ih _ (add_edge_nodup _ comp d h1) (add_edge_df _ comp d h2)

theorem processComp_nodup_df (env : MetaEnv) (g : Graph) (comp : String)
    (h1 : (gkeys g).Nodup) (h2 : DangleFree g) :
    (gkeys (processComp env g comp).1).Nodup ∧ DangleFree (processComp env g comp).1 := by
  rw [processComp_fst]
  exact depFold_nodup_df comp _ _ (add_node_nodup _ comp h1) (add_node_df _ comp h2)

theorem processComps_nodup_df (env : MetaEnv) (comps : List String) :
    ∀ (acc : Graph × List String), (gkeys acc.1).Nodup → DangleFree acc.1 →
      (gkeys (comps.foldl (compStep env) acc).1).Nodup ∧
        DangleFree (comps.foldl (compStep env) acc).1 := by
  induction comps with
  | nil => intro acc h1 h2; exact ⟨h1, h2⟩
  | cons c t ih =>
    intro acc h1 h2
    rw [List.foldl_cons]
    have h' := processComp_nodup_df env acc.1 c h1 h2
    exact ih _ h'.1 h'.2

theorem build_nodup_df (env : MetaEnv) :
    ∀ (fuel : Nat) (wl : List String) (g : Graph),
      (gkeys g).Nodup → DangleFree g →
      (gkeys (build_graph_for env fuel wl g)).Nodup ∧
        DangleFree (build_graph_for env fuel wl g) := by
  intro fuel
  induction fuel with
  | zero =>
    intro wl g h1 h2
    simp only [build_graph_for]
    exact ⟨h1, h2⟩
  | succ fuel ih =>
    intro wl g h1 h2
    cases wl with
    | nil =>
      simp only [build_graph_for]
      exact ⟨h1, h2⟩
    | cons cur rest =>
      simp only [build_graph_for]
      have h' := processComps_nodup_df env (expand_group env cur) (g, []) h1 h2
      exact ih _ _ h'.1 h'.2

/-- C5 (amended): a package `G` with `is_group = true` is absent from the
final order as long as no record lists it among its dependencies and no
record lists it among its components — in particular a root group is
replaced by its components, which do become graph nodes; but a group
listed as a dependency of another package does appear in the final order
(see the counterexample). -/
theorem c5_group_amended (env : MetaEnv) (G : String) (fuel : Nat)
    (roots rest : List String)
    (hg : (env G).is_group = true)
    (hdep : ∀ p, ¬ G ∈ (env p).dependencies)
    (hcomp : ∀ p, ¬ G ∈ (env p).components) :
    (¬ G ∈ tier_sort env (topo_sort (build_graph_for env fuel roots []))) ∧
    (∀ c ∈ (env G).components,
      c ∈ gkeys (build_graph_for env (fuel + 1) (G :: rest) [])) := by
  constructor
  · have havoid : ¬ G ∈ gkeys (build_graph_for env fuel roots []) :=
      build_avoids env G hg hdep hcomp fuel roots [] (by simp [gkeys])
    have hinv := build_nodup_df env fuel roots [] (by simp [gkeys]) (by intro e he; simp at he)
    have hperm := c6_order_is_node_set_permutation env _ hinv.1 hinv.2
    intro hG
    exact havoid (hperm.mem_iff.1 hG)
  · intro c hc
    show c ∈ gkeys (build_graph_for env (fuel + 1) (G :: rest) [])
    simp only [build_graph_for]
    apply build_keys_mono
    have : c ∈ expand_group env G := by
      unfold expand_group
      rw [if_pos hg]
      exact hc
    exact processComps_comps_mem env (expand_group env G) ([], []) c this

/-- Metadata where `app` depends on the group `grp` (components `[X]`). -/
def envC5 : MetaEnv := fun p =>
  if p = "app" then { defaultMeta "app" with dependencies := ["grp"] }
  else if p = "grp" then { defaultMeta "grp" with is_group := true, components := ["X"] }
  else defaultMeta p

/-- C5 counterexample: a package with `is_group = true` that occurs as a
dependency of another package becomes a graph node and appears in the
final build order, refuting the claim for non-root occurrences. -/
theorem c5_group_as_dependency_in_order :
    (envC5 "grp").is_group = true ∧
    "grp" ∈ tier_sort envC5 (topo_sort (build_graph_for envC5 10 ["app"] [])) := by
  exact ⟨rfl, by decide⟩

/-- Metadata with an isolated group `G` (components `[X]`) that nothing
references. -/
def envC5w : MetaEnv := fun p =>
  if p = "G" then { defaultMeta "G" with is_group := true, components := ["X"] }
  else defaultMeta p

/-- C5 witness: the amended theorem instantiated on a root group `G` that
no record references — `G` is absent from the final order and its
component `X` is a node. -/
theorem c5_group_amended_witness :
    ((envC5w "G").is_group = true) ∧
    (∀ p, ¬ "G" ∈ (envC5w p).dependencies) ∧
    (∀ p, ¬ "G" ∈ (envC5w p).components) ∧
    ((¬ "G" ∈ tier_sort envC5w (topo_sort (build_graph_for envC5w 4 ["G"] []))) ∧
      (∀ c ∈ (envC5w "G").components,
        c ∈ gkeys (build_graph_for envC5w (4 + 1) ("G" :: []) []))) := by
  have h1 : (envC5w "G").is_group = true := rfl
  have h2 : ∀ p, ¬ "G" ∈ (envC5w p).dependencies := by
    intro p
    unfold envC5w
    by_cases hp : p = "G"
    · rw [if_pos hp]; decide
    · rw [if_neg hp]; simp [defaultMeta]
  have h3 : ∀ p, ¬ "G" ∈ (envC5w p).components := by
    intro p
    unfold envC5w
    by_cases hp : p = "G"
    · rw [if_pos hp]; decide
    · rw [if_neg hp]; simp [defaultMeta]
  exact ⟨h1, h2, h3, c5_group_amended envC5w "G" 4 ["G"] [] h1 h2 h3⟩

/-! ## C7 / C10: the Rebuild Analyzer

Machinery: a bundle of postconditions of `check_rebuild` / `checkDeps`,
proved by induction on fuel.  The final memo table is "downward closed":
a package settled `False` has all its direct dependencies settled
`False`, which is exactly upward propagation of `True`. -/

/-- The memo table never contradicts the edge rule: a `False` entry has
`False` entries for all its direct dependencies. -/
def GoodCache (g : Graph) (c : Cache) : Prop :=
  ∀ p, lookupCache c p = some false → ∀ d ∈ getDeps g p, lookupCache c d = some false

/-- Postconditions common to every `check_rebuild` / `checkDeps` call:
existing entries survive unchanged; an on-path package that was uncached
is still uncached or was settled `True`; downward closure is preserved;
key distinctness is preserved; a package whose installed version is
empty never acquires a `False` entry. -/
def PostCommon (db : InstalledDb) (g : Graph) (visited : Finset String)
    (c c' : Cache) : Prop :=
  (∀ k v, lookupCache c k = some v → lookupCache c' k = some v) ∧
  (∀ k ∈ visited, lookupCache c k = none →
      lookupCache c' k = none ∨ lookupCache c' k = some true) ∧
  (GoodCache g c → GoodCache g c') ∧
  ((c.map (·.1)).Nodup → (c'.map (·.1)).Nodup) ∧
  (∀ k, installed_version k db = "" → ¬ lookupCache c k = some false →
      ¬ lookupCache c' k = some false)

theorem postCommon_refl (db : InstalledDb) (g : Graph) (visited : Finset String)
    (c : Cache) : PostCommon db g visited c c :=
  ⟨fun _ _ h => h, fun _ _ h => Or.inl h, id, id, fun _ _ h => h⟩

theorem postCommon_trans (db : InstalledDb) (g : Graph) (visited : Finset String)
    (c c' c'' : Cache) (h1 : PostCommon db g visited c c')
    (h2 : PostCommon db g visited c' c'') : PostCommon db g visited c c'' := by
  obtain ⟨a1, e1, g1, f1, h1'⟩ := h1
  obtain ⟨a2, e2, g2, f2, h2'⟩ := h2
  refine ⟨fun k v h => a2 k v (a1 k v h), ?_, fun h => g2 (g1 h), fun h => f2 (f1 h),
    fun k hk h => h2' k hk (h1' k hk h)⟩
  intro k hk h
  rcases e1 k hk h with h' | h'
  · exact e2 k hk h'
  · exact Or.inr (a2 k true h')

/-- The key list of an in-place dict update. -/
theorem dictPut_keys_of_mem {β : Type} (c : List (String × β)) (k : String) (v : β) :
    (c.map (fun e => if e.1 = k then (e.1, v) else e)).map (·.1) = c.map (·.1) := by
  induction c with
  | nil => rfl
  | cons e t ih =>
    rw [List.map_cons, List.map_cons, ih]
    by_cases he : e.1 = k
    · rw [if_pos he]
      simp
    · rw [if_neg he]
      simp

theorem dictPut_keys_nodup {β : Type} (c : List (String × β)) (k : String) (v : β)
    (h : (c.map (·.1)).Nodup) : ((dictPut c k v).map (·.1)).Nodup := by
  unfold dictPut
  by_cases hm : k ∈ c.map (·.1)
  · rw [if_pos hm, dictPut_keys_of_mem]
    exact h
  · rw [if_neg hm, List.map_append, List.nodup_append]
    refine ⟨h, by simp, ?_⟩
    intro x hx hx'
    simp only [List.map_cons, List.map_nil, List.mem_singleton] at hx'
    subst hx'
    exact hm hx

/-- Settling a package `True` (when it does not already hold a `False`
entry) satisfies every common postcondition and caches the `True`. -/
theorem insertTrue_post (db : InstalledDb) (g : Graph) (visited : Finset String)
    (c : Cache) (pkg : String) (hnf : ¬ lookupCache c pkg = some false) :
    PostCommon db g visited c (insertCache c pkg true) ∧
      lookupCache (insertCache c pkg true) pkg = some true := by
  have hself : lookupCache (insertCache c pkg true) pkg = some true :=
    dictGet_put_self c pkg true
  have hne : ∀ k, k ≠ pkg → lookupCache (insertCache c pkg true) k = lookupCache c k :=
    fun k hk => dictGet_put_of_ne c pkg k true hk
  refine ⟨⟨?_, ?_, ?_, ?_, ?_⟩, hself⟩
  · intro k v h
    by_cases hk : k = pkg
    · subst hk
      rw [hself]
      rcases hb : v with _ | _
      · exact absurd (hb ▸ h) hnf
      · rfl
    · rw [hne k hk]; exact h
  · intro k _ h
    by_cases hk : k = pkg
    · subst hk; exact Or.inr hself
    · rw [hne k hk]; exact Or.inl h
  · intro hg p hp d hd
    by_cases hpk : p = pkg
    · subst hpk
      rw [hself] at hp
      simp at hp
    · rw [hne p hpk] at hp
      by_cases hdk : d = pkg
      · subst hdk
        exact absurd (hg p hp d hd) hnf
      · rw [hne d hdk]
        exact hg p hp d hd
  · exact dictPut_keys_nodup c pkg true
  · intro k _ h
    by_cases hk : k = pkg
    · subst hk; rw [hself]; simp
    · rw [hne k hk]; exact h

/-! Branch equations of `check_rebuild`. -/

theorem check_zero (env : MetaEnv) (db : InstalledDb) (g : Graph) (pkg : String)
    (visited : Finset String) (c : Cache) :
    check_rebuild env db g 0 pkg visited c = (true, c) := by
  simp only [check_rebuild]

theorem check_succ_hit (env : MetaEnv) (db : InstalledDb) (g : Graph) (fuel : Nat)
    (pkg : String) (visited : Finset String) (c : Cache) (b : Bool)
    (hc : lookupCache c pkg = some b) :
    check_rebuild env db g (fuel + 1) pkg visited c = (b, c) := by
  simp only [check_rebuild, hc]

theorem check_succ_visited (env : MetaEnv) (db : InstalledDb) (g : Graph) (fuel : Nat)
    (pkg : String) (visited : Finset String) (c : Cache)
    (hc : lookupCache c pkg = none) (hv : pkg ∈ visited) :
    check_rebuild env db g (fuel + 1) pkg visited c = (true, insertCache c pkg true) := by
  simp only [check_rebuild, hc, if_pos hv]

theorem check_succ_notinst (env : MetaEnv) (db : InstalledDb) (g : Graph) (fuel : Nat)
    (pkg : String) (visited : Finset String) (c : Cache)
    (hc : lookupCache c pkg = none) (hv : ¬ pkg ∈ visited)
    (hi : installed_version pkg db = "") :
    check_rebuild env db g (fuel + 1) pkg visited c = (true, insertCache c pkg true) := by
  simp only [check_rebuild, hc, if_neg hv, if_pos hi]

theorem check_succ_ver (env : MetaEnv) (db : InstalledDb) (g : Graph) (fuel : Nat)
    (pkg : String) (visited : Finset String) (c : Cache)
    (hc : lookupCache c pkg = none) (hv : ¬ pkg ∈ visited)
    (hi : ¬ installed_version pkg db = "")
    (hs : (env pkg).version ≠ "" ∧ (env pkg).version ≠ installed_version pkg db) :
    check_rebuild env db g (fuel + 1) pkg visited c = (true, insertCache c pkg true) := by
  simp only [check_rebuild, hc, if_neg hv, if_neg hi, if_pos hs]

theorem check_succ_deps (env : MetaEnv) (db : InstalledDb) (g : Graph) (fuel : Nat)
    (pkg : String) (visited : Finset String) (c : Cache)
    (hc : lookupCache c pkg = none) (hv : ¬ pkg ∈ visited)
    (hi : ¬ installed_version pkg db = "")
    (hs : ¬ ((env pkg).version ≠ "" ∧ (env pkg).version ≠ installed_version pkg db)) :
    check_rebuild env db g (fuel + 1) pkg visited c =
      (if (checkDeps env db g fuel (getDeps g pkg) (insert pkg visited) c).1 then
        (true, insertCache
          (checkDeps env db g fuel (getDeps g pkg) (insert pkg visited) c).2 pkg true)
      else
        (false, insertCache
          (checkDeps env db g fuel (getDeps g pkg) (insert pkg visited) c).2 pkg false)) := by
  simp only [check_rebuild, hc, if_neg hv, if_neg hi, if_neg hs]
  rfl

theorem checkDeps_nil (env : MetaEnv) (db : InstalledDb) (g : Graph) (fuel : Nat)
    (visited : Finset String) (c : Cache) :
    checkDeps env db g fuel [] visited c = (false, c) := rfl

theorem checkDeps_cons (env : MetaEnv) (db : InstalledDb) (g : Graph) (fuel : Nat)
    (d : String) (ds : List String) (visited : Finset String) (c : Cache) :
    checkDeps env db g fuel (d :: ds) visited c =
      (if (check_rebuild env db g fuel d visited c).1 then
        (true, (check_rebuild env db g fuel d visited c).2)
      else checkDeps env db g fuel ds visited (check_rebuild env db g fuel d visited c).2) := by
  have hskip : ∀ (l : List String) (acc : Bool × Cache), acc.1 = true →
      l.foldl (fun acc d => if acc.1 then acc
        else check_rebuild env db g fuel d visited acc.2) acc = acc := by
    intro l
    induction l with
    | nil => intro acc _; rfl
    | cons x xs ih =>
      intro acc h
      rw [List.foldl_cons, if_pos h]
      exact ih acc h
  unfold checkDeps
  rw [List.foldl_cons]
  have hfirst : (if (false, c).1 = true then (false, c)
      else check_rebuild env db g fuel d visited (false, c).2)
      = check_rebuild env db g fuel d visited c := by
    rw [if_neg (by simp)]
  rw [hfirst]
  by_cases hr : (check_rebuild env db g fuel d visited c).1 = true
  · rw [if_pos hr, hskip _ _ hr]
    exact Prod.ext hr rfl
  · rw [if_neg hr]
    have hr' : (check_rebuild env db g fuel d visited c).1 = false := Bool.eq_false_iff.2 hr
    have heta : check_rebuild env db g fuel d visited c
        = (false, (check_rebuild env db g fuel d visited c).2) := Prod.ext hr' rfl
    nth_rewrite 1 [heta]
    rfl

/-! The postcondition bundles, proved by induction on fuel. -/

/-- The postcondition bundle of one `check_rebuild` call: the common
transition facts of `PostCommon`, downward closure of a `False` result
(given a downward-closed entry table), and — for positive fuel — the
result is cached. -/
def CheckPost (env : MetaEnv) (db : InstalledDb) (g : Graph) (fuel : Nat) : Prop :=
  ∀ (pkg : String) (visited : Finset String) (c : Cache),
    PostCommon db g visited c (check_rebuild env db g fuel pkg visited c).2 ∧
    (GoodCache g c → (check_rebuild env db g fuel pkg visited c).1 = false →
      lookupCache (check_rebuild env db g fuel pkg visited c).2 pkg = some false ∧
      ∀ d ∈ getDeps g pkg,
        lookupCache (check_rebuild env db g fuel pkg visited c).2 d = some false) ∧
    (1 ≤ fuel →
      lookupCache (check_rebuild env db g fuel pkg visited c).2 pkg
        = some (check_rebuild env db g fuel pkg visited c).1)

/-- The postcondition bundle of one `checkDeps` call. -/
def DepsPost (env : MetaEnv) (db : InstalledDb) (g : Graph) (fuel : Nat)
    (ds : List String) : Prop :=
  ∀ (visited : Finset String) (c : Cache),
    PostCommon db g visited c (checkDeps env db g fuel ds visited c).2 ∧
    (GoodCache g c → (checkDeps env db g fuel ds visited c).1 = false →
      ∀ d ∈ ds, lookupCache (checkDeps env db g fuel ds visited c).2 d = some false)

theorem postCommon_mono (db : InstalledDb) (g : Graph) (v v' : Finset String)
    (c c' : Cache) (hsub : v ⊆ v') (h : PostCommon db g v' c c') :
    PostCommon db g v c c' :=
  ⟨h.1, fun k hk => h.2.1 k (hsub hk), h.2.2.1, h.2.2.2.1, h.2.2.2.2⟩

theorem depsPost_of_checkPost (env : MetaEnv) (db : InstalledDb) (g : Graph)
    (fuel : Nat) (hcheck : CheckPost env db g fuel) :
    ∀ ds, DepsPost env db g fuel ds := by
  intro ds
  induction ds with
  | nil =>
    intro visited c
    rw [checkDeps_nil]
    exact ⟨postCommon_refl db g visited c, fun _ _ d hd => absurd hd (List.not_mem_nil d)⟩
  | cons d t ih =>
    intro visited c
    rw [checkDeps_cons]
    obtain ⟨hpc1, hb1, _⟩ := hcheck d visited c
    by_cases hr1 : (check_rebuild env db g fuel d visited c).1 = true
    · rw [if_pos hr1]
      exact ⟨hpc1, by intro _ hfalse; simp at hfalse⟩
    · rw [if_neg hr1]
      have hr1' : (check_rebuild env db g fuel d visited c).1 = false :=
        Bool.eq_false_iff.2 hr1
      obtain ⟨hpc2, hb2⟩ := ih visited (check_rebuild env db g fuel d visited c).2
      refine ⟨postCommon_trans db g visited _ _ _ hpc1 hpc2, ?_⟩
      intro hgood hres x hx
      have hgood1 : GoodCache g (check_rebuild env db g fuel d visited c).2 :=
        hpc1.2.2.1 hgood
      rcases List.mem_cons.1 hx with rfl | hx
      · have hd := hb1 hgood hr1'
        exact hpc2.1 x false hd.1
      · exact hb2 hgood1 hres x hx

theorem checkPost_zero (env : MetaEnv) (db : InstalledDb) (g : Graph) :
    CheckPost env db g 0 := by
  intro pkg visited c
  rw [check_zero]
  refine ⟨postCommon_refl db g visited c, ?_, ?_⟩
  · intro _ hfalse
    simp at hfalse
  · intro h
    simp at h

theorem checkPost_succ (env : MetaEnv) (db : InstalledDb) (g : Graph) (fuel : Nat)
    (ih : CheckPost env db g fuel) : CheckPost env db g (fuel + 1) := by
  have hdeps := depsPost_of_checkPost env db g fuel ih
  intro pkg visited c
  cases hc : lookupCache c pkg with
  | some b =>
    rw [check_succ_hit env db g fuel pkg visited c b hc]
    refine ⟨postCommon_refl db g visited c, ?_, fun _ => hc⟩
    intro hgood hres
    simp only at hres
    subst hres
    exact ⟨hc, fun d hd => hgood pkg hc d hd⟩
  | none =>
    have hnf : ¬ lookupCache c pkg = some false := by rw [hc]; simp
    by_cases hv : pkg ∈ visited
    · rw [check_succ_visited env db g fuel pkg visited c hc hv]
      obtain ⟨hpc, hself⟩ := insertTrue_post db g visited c pkg hnf
      exact ⟨hpc, by intro _ hfalse; simp at hfalse, fun _ => hself⟩
    · by_cases hi : installed_version pkg db = ""
      · rw [check_succ_notinst env db g fuel pkg visited c hc hv hi]
        obtain ⟨hpc, hself⟩ := insertTrue_post db g visited c pkg hnf
        exact ⟨hpc, by intro _ hfalse; simp at hfalse, fun _ => hself⟩
      · by_cases hs : (env pkg).version ≠ "" ∧ (env pkg).version ≠ installed_version pkg db
        · rw [check_succ_ver env db g fuel pkg visited c hc hv hi hs]
          obtain ⟨hpc, hself⟩ := insertTrue_post db g visited c pkg hnf
          exact ⟨hpc, by intro _ hfalse; simp at hfalse, fun _ => hself⟩
        · rw [check_succ_deps env db g fuel pkg visited c hc hv hi hs]
          obtain ⟨hpcr, hbr⟩ := hdeps (getDeps g pkg) (insert pkg visited) c
          set r := checkDeps env db g fuel (getDeps g pkg) (insert pkg visited) c with hrdef
          have hpkgr : lookupCache r.2 pkg = none ∨ lookupCache r.2 pkg = some true :=
            hpcr.2.1 pkg (Finset.mem_insert_self pkg visited) hc
          have hnfr : ¬ lookupCache r.2 pkg = some false := by
            rcases hpkgr with h' | h' <;> rw [h'] <;> simp
          have hpc' : PostCommon db g visited c r.2 :=
            postCommon_mono db g visited (insert pkg visited) c r.2
              (Finset.subset_insert pkg visited) hpcr
          by_cases hr1 : r.1 = true
          · rw [if_pos hr1]
            obtain ⟨hpci, hselfi⟩ := insertTrue_post db g visited r.2 pkg hnfr
            refine ⟨postCommon_trans db g visited _ _ _ hpc' hpci, ?_, fun _ => hselfi⟩
            intro _ hfalse
            simp at hfalse
          · rw [if_neg hr1]
            have hr1' : r.1 = false := Bool.eq_false_iff.2 hr1
            have hselff : lookupCache (insertCache r.2 pkg false) pkg = some false :=
              dictGet_put_self r.2 pkg false
            have hnei : ∀ k, k ≠ pkg →
                lookupCache (insertCache r.2 pkg false) k = lookupCache r.2 k :=
              fun k hk => dictGet_put_of_ne r.2 pkg k false hk
            refine ⟨⟨?_, ?_, ?_, ?_, ?_⟩, ?_, fun _ => hselff⟩
            · intro k v h
              by_cases hk : k = pkg
              · subst hk
                rw [hc] at h
                exact absurd h (by simp)
              · rw [hnei k hk]
                exact hpc'.1 k v h
            · intro k hk h
              have hkp : k ≠ pkg := fun hh => hv (hh ▸ hk)
              rw [hnei k hkp]
              exact hpc'.2.1 k hk h
            · intro hgood p hp d hd
              by_cases hdk : d = pkg
              · rw [hdk]
                exact hselff
              · rw [hnei d hdk]
                by_cases hpk : p = pkg
                · rw [hpk] at hd
                  exact hbr hgood hr1' d hd
                · rw [hnei p hpk] at hp
                  exact hpcr.2.2.1 hgood p hp d hd
            · intro h
              exact dictPut_keys_nodup r.2 pkg false (hpc'.2.2.2.1 h)
            · intro k hki h
              by_cases hk : k = pkg
              · subst hk
                exact absurd hki hi
              · rw [hnei k hk]
                exact hpc'.2.2.2.2 k hki h
            · intro hgood _
              refine ⟨hselff, ?_⟩
              intro d hd
              by_cases hdk : d = pkg
              · subst hdk
                exact hselff
              · rw [hnei d hdk]
                exact hbr hgood hr1' d hd

theorem checkPost_all (env : MetaEnv) (db : InstalledDb) (g : Graph) :
    ∀ fuel, CheckPost env db g fuel := by
  intro fuel
  induction fuel with
  | zero => exact checkPost_zero env db g
  | succ fuel ih => exact checkPost_succ env db g fuel ih

/-- Facts about the whole `run_rebuild` fold, generalized over the
starting memo table. -/
theorem run_fold_facts (env : MetaEnv) (db : InstalledDb) (g : Graph)
    (ordered : List String) :
    ∀ (c : Cache), GoodCache g c → ((c.map (·.1)).Nodup) →
      (∀ k, installed_version k db = "" → ¬ lookupCache c k = some false) →
      GoodCache g (ordered.foldl
        (fun c n => (check_rebuild env db g (FUELR g) n ∅ c).2) c) ∧
      ((ordered.foldl (fun c n => (check_rebuild env db g (FUELR g) n ∅ c).2) c).map
        (·.1)).Nodup ∧
      (∀ k, installed_version k db = "" →
        ¬ lookupCache (ordered.foldl
            (fun c n => (check_rebuild env db g (FUELR g) n ∅ c).2) c) k = some false) ∧
      (∀ k v, lookupCache c k = some v →
        lookupCache (ordered.foldl
          (fun c n => (check_rebuild env db g (FUELR g) n ∅ c).2) c) k = some v) ∧
      (∀ pkg ∈ ordered, ∃ b,
        lookupCache (ordered.foldl
          (fun c n => (check_rebuild env db g (FUELR g) n ∅ c).2) c) pkg = some b) := by
  induction ordered with
  | nil =>
    intro c h1 h2 h3
    exact ⟨h1, h2, h3, fun _ _ h => h, fun pkg hp => absurd hp (List.not_mem_nil pkg)⟩
  | cons n t ih =>
    intro c h1 h2 h3
    rw [List.foldl_cons]
    obtain ⟨hpc, _, htot⟩ := checkPost_all env db g (FUELR g) n ∅ c
    have hfuel : 1 ≤ FUELR g := by unfold FUELR; omega
    have hn := htot hfuel
    obtain ⟨ih1, ih2, ih3, ih4, ih5⟩ := ih (check_rebuild env db g (FUELR g) n ∅ c).2
      (hpc.2.2.1 h1) (hpc.2.2.2.1 h2) (fun k hk h => hpc.2.2.2.2 k hk (h3 k hk) h)
    refine ⟨ih1, ih2, ih3, fun k v h => ih4 k v (hpc.1 k v h), ?_⟩
    intro pkg hp
    rcases List.mem_cons.1 hp with rfl | hp
    · exact ⟨_, ih4 pkg _ hn⟩
    · exact ih5 pkg hp

/-- The four facts instantiated at `run_rebuild`'s empty starting table. -/
theorem run_rebuild_facts (env : MetaEnv) (db : InstalledDb) (g : Graph)
    (ordered : List String) :
    GoodCache g (run_rebuild env db g ordered) ∧
    ((run_rebuild env db g ordered).map (·.1)).Nodup ∧
    (∀ k, installed_version k db = "" →
      ¬ lookupCache (run_rebuild env db g ordered) k = some false) ∧
    (∀ pkg ∈ ordered, ∃ b, lookupCache (run_rebuild env db g ordered) pkg = some b) := by
  have h := run_fold_facts env db g ordered []
    (by intro p hp; simp [lookupCache, dictGet] at hp)
    (by simp)
    (by intro k _ h; simp [lookupCache, dictGet] at h)
  exact ⟨h.1, h.2.1, h.2.2.1, h.2.2.2.2⟩

/-- Membership in the extracted rebuild list is exactly a `True` entry. -/
theorem needs_mem_iff (c : Cache) (hnd : (c.map (·.1)).Nodup) (p : String) :
    p ∈ needs_rebuild_list c ↔ lookupCache c p = some true := by
  unfold needs_rebuild_list
  induction c with
  | nil => simp [lookupCache, dictGet]
  | cons e t ih =>
    simp only [List.map_cons, List.nodup_cons] at hnd
    have hl : lookupCache (e :: t) p = if e.1 = p then some e.2 else lookupCache t p := rfl
    by_cases he : e.1 = p
    · rw [hl, if_pos he]
      cases hb : e.2 with
      | false =>
        rw [List.filter_cons, if_neg (by simp [hb])]
        constructor
        · intro hmem
          exfalso
          rcases List.mem_map.1 hmem with ⟨x, hx, hx1⟩
          refine hnd.1 ?_
          rw [he, ← hx1]
          exact List.mem_map_of_mem _ (List.mem_of_mem_filter hx)
        · intro hh
          simp at hh
      | true =>
        rw [List.filter_cons, if_pos (by simp [hb])]
        simp [he]
    · rw [hl, if_neg he, ← ih hnd.2]
      rw [List.filter_cons]
      cases hb : e.2 with
      | false => rw [if_neg (by simp [hb])]
      | true =>
        rw [if_pos (by simp [hb])]
        have hne : ¬ p = e.1 := fun hh => he hh.symm
        simp [hne]

/-- C7: in the memo table produced by the full rebuild pass, whenever any
direct dependency of an analyzed node needs rebuild, the node needs
rebuild — staleness propagates upward through the graph. -/
theorem c7_rebuild_propagation (env : MetaEnv) (db : InstalledDb) (g : Graph)
    (ordered : List String) (pkg d : String)
    (hd : d ∈ getDeps g pkg) (hpkg : pkg ∈ ordered)
    (hneed : d ∈ needs_rebuild_list (run_rebuild env db g ordered)) :
    pkg ∈ needs_rebuild_list (run_rebuild env db g ordered) := by
  obtain ⟨hgood, hnd, _, htot⟩ := run_rebuild_facts env db g ordered
  rw [needs_mem_iff _ hnd] at hneed ⊢
  obtain ⟨b, hb⟩ := htot pkg hpkg
  cases b with
  | false =>
    have := hgood pkg hb d hd
    rw [hneed] at this
    exact absurd this (by simp)
  | true => exact hb

/-- The `gcc → binutils` chain with an unrelated `zlib`; `binutils` is
installed at 2.40 while its metadata declares 2.41; `gcc` and `zlib` are
installed at their declared versions. -/
def env7 : MetaEnv := fun p =>
  if p = "gcc" then { defaultMeta "gcc" with version := "13.2", dependencies := ["binutils"] }
  else if p = "binutils" then { defaultMeta "binutils" with version := "2.41" }
  else if p = "zlib" then { defaultMeta "zlib" with version := "1.3" }
  else defaultMeta p

def db7 : InstalledDb :=
  [("gcc-13.2", ⟨"gcc", "13.2"⟩), ("binutils-2.40", ⟨"binutils", "2.40"⟩),
   ("zlib-1.3", ⟨"zlib", "1.3"⟩)]

def g7 : Graph := [("gcc", ["binutils"]), ("binutils", []), ("zlib", [])]

def c7order : List String := ["gcc", "zlib", "binutils"]

/-- C7 witness: `binutils` (version drift) and `gcc` (dependent) are both
marked, the up-to-date unrelated `zlib` is not; the `gcc` marking follows
from the propagation theorem applied at this concrete input. -/
theorem c7_rebuild_propagation_witness :
    ("binutils" ∈ getDeps g7 "gcc") ∧ ("gcc" ∈ c7order) ∧
    ("binutils" ∈ needs_rebuild_list (run_rebuild env7 db7 g7 c7order)) ∧
    ("gcc" ∈ needs_rebuild_list (run_rebuild env7 db7 g7 c7order)) ∧
    ¬ ("zlib" ∈ needs_rebuild_list (run_rebuild env7 db7 g7 c7order)) := by
  refine ⟨by decide, by decide, by decide, ?_, by decide⟩
  exact c7_rebuild_propagation env7 db7 g7 c7order "gcc" "binutils"
    (by decide) (by decide) (by decide)

/-- C10: a package whose installed-version lookup is empty — covering
both a package absent from the registry and one present with an empty or
missing version field, which the analyzer cannot distinguish — is marked
needing rebuild, and so is every package that transitively depends on
it. -/
theorem c10_empty_version_rebuilds (env : MetaEnv) (db : InstalledDb) (g : Graph)
    (ordered : List String) (pkg : String)
    (hi : installed_version pkg db = "")
    (hpkg : pkg ∈ ordered)
    (hcov : ∀ n, n ∈ gkeys g → n ∈ ordered)
    (hdf : DangleFree g) :
    (pkg ∈ needs_rebuild_list (run_rebuild env db g ordered)) ∧
    (∀ q, q ∈ gkeys g →
      Relation.ReflTransGen (fun a b => b ∈ getDeps g a) q pkg →
      q ∈ needs_rebuild_list (run_rebuild env db g ordered)) := by
  obtain ⟨hgood, hnd, hH, htot⟩ := run_rebuild_facts env db g ordered
  have hdirect : pkg ∈ needs_rebuild_list (run_rebuild env db g ordered) := by
    rw [needs_mem_iff _ hnd]
    obtain ⟨b, hb⟩ := htot pkg hpkg
    cases b with
    | false => exact absurd hb (hH pkg hi)
    | true => exact hb
  have key : ∀ q, Relation.ReflTransGen (fun a b => b ∈ getDeps g a) q pkg →
      q ∈ gkeys g → lookupCache (run_rebuild env db g ordered) q = some true := by
    intro q hreach
    induction hreach using Relation.ReflTransGen.head_induction_on with
    | refl =>
      intro _
      rw [← needs_mem_iff _ hnd]
      exact hdirect
    | @head a mid hstep htail ihq =>
      intro ha
      have hmid : mid ∈ gkeys g := getDeps_subset g a hdf mid hstep
      have hmidv := ihq hmid
      obtain ⟨b, hb⟩ := htot a (hcov a ha)
      cases b with
      | false =>
        have hfd := hgood a hb mid hstep
        rw [hfd] at hmidv
        exact absurd hmidv (by simp)
      | true => exact hb
  refine ⟨hdirect, ?_⟩
  intro q hq hreach
  rw [needs_mem_iff _ hnd]
  exact key q hreach hq
  
/-- Metadata and registry for the C10 witness: `p` is present in the
registry (key `p-1`) but with an empty version field; `q` depends on `p`
and is installed at its declared version. -/
def env10 : MetaEnv := fun p =>
  if p = "q" then { defaultMeta "q" with version := "2", dependencies := ["p"] }
  else if p = "p" then { defaultMeta "p" with version := "1" }
  else defaultMeta p

def db10 : InstalledDb := [("p-1", ⟨"p", ""⟩), ("q-2", ⟨"q", "2"⟩)]

def g10 : Graph := [("q", ["p"]), ("p", [])]

def c10order : List String := ["q", "p"]

/-- C10 witness: `p` is registered but its record's version is empty, so
it is marked for rebuild exactly like an uninstalled package, and the
staleness propagates to its dependent `q`. -/
theorem c10_empty_version_rebuilds_witness :
    (is_installed "p" db10 = true) ∧
    (installed_version "p" db10 = "") ∧ ("p" ∈ c10order) ∧
    (∀ n, n ∈ gkeys g10 → n ∈ c10order) ∧ DangleFree g10 ∧
    (("p" ∈ needs_rebuild_list (run_rebuild env10 db10 g10 c10order)) ∧
      ("q" ∈ needs_rebuild_list (run_rebuild env10 db10 g10 c10order))) := by
  have h := c10_empty_version_rebuilds env10 db10 g10 c10order "p"
    (by decide) (by decide) (by decide) (by unfold DangleFree; decide)
  exact ⟨by decide, by decide, by decide, by decide, by unfold DangleFree; decide,
    h.1, h.2 "q" (by decide)
      (Relation.ReflTransGen.single (show "p" ∈ getDeps g10 "q" by decide))⟩

/-! ## C8: self-loops and the cycle detector

Machinery: branch equations of `_dfs_cycle`, its state-transition facts
(the gray set is restored on return, the black set and the cycle list
only grow), and the key invariant — a finished node with a self-edge has
its one-element cycle `[v, v]` recorded. -/

/-- The cycle slice `_dfs_cycle` emits when it re-meets a gray node. -/
def cycOf (stack : List String) (node : String) : List String :=
  if node ∈ stack then stack.drop (idxOfS stack node) ++ [node] else stack ++ [node]

/-- The dependency loop of one `_dfs_cycle` frame. -/
def dfsFold (g : Graph) (f : Nat) (stack' : List String) (ds : List String)
    (st : DfsSt) : DfsSt :=
  ds.foldl (fun s d => dfs g f d stack' s) st

/-- One full (white-node) `_dfs_cycle` frame. -/
def dfsStep (g : Graph) (f : Nat) (node : String) (stack : List String)
    (st : DfsSt) : DfsSt :=
  let st1 : DfsSt := { st with visiting := insert node st.visiting }
  let st2 := dfsFold g f (stack ++ [node]) (getDeps g node) st1
  { st2 with visiting := st2.visiting.erase node, visited := insert node st2.visited }

theorem dfs_zero (g : Graph) (node : String) (stack : List String) (st : DfsSt) :
    dfs g 0 node stack st = st := rfl

theorem dfs_cyc (g : Graph) (f : Nat) (node : String) (stack : List String)
    (st : DfsSt) (h1 : node ∈ st.visiting) :
    dfs g (f + 1) node stack st = { st with cycles := st.cycles ++ [cycOf stack node] } := by
  simp only [dfs, cycOf, if_pos h1]

theorem dfs_black (g : Graph) (f : Nat) (node : String) (stack : List String)
    (st : DfsSt) (h1 : ¬ node ∈ st.visiting) (h2 : node ∈ st.visited) :
    dfs g (f + 1) node stack st = st := by
  simp only [dfs, if_neg h1, if_pos h2]

theorem dfs_white (g : Graph) (f : Nat) (node : String) (stack : List String)
    (st : DfsSt) (h1 : ¬ node ∈ st.visiting) (h2 : ¬ node ∈ st.visited) :
    dfs g (f + 1) node stack st = dfsStep g f node stack st := by
  simp only [dfs, dfsStep, dfsFold, if_neg h1, if_neg h2]

/-- The gray set is restored on return from any `_dfs_cycle` call. -/
theorem dfs_visiting (g : Graph) :
    ∀ (f : Nat) (node : String) (stack : List String) (st : DfsSt),
      (dfs g f node stack st).visiting = st.visiting := by
  intro f
  induction f with
  | zero => intro node stack st; rfl
  | succ f ih =>
    intro node stack st
    by_cases h1 : node ∈ st.visiting
    · rw [dfs_cyc g f node stack st h1]
    · by_cases h2 : node ∈ st.visited
      · rw [dfs_black g f node stack st h1 h2]
      · rw [dfs_white g f node stack st h1 h2]
        have hfold : ∀ (ds : List String) (s : DfsSt),
            (dfsFold g f (stack ++ [node]) ds s).visiting = s.visiting := by
          intro ds
          induction ds with
          | nil => intro s; rfl
          | cons d t iht =>
            intro s
            show (dfsFold g f (stack ++ [node]) t (dfs g f d (stack ++ [node]) s)).visiting = _
            rw [iht, ih]
        show ((dfsFold g f (stack ++ [node]) (getDeps g node)
            { st with visiting := insert node st.visiting }).visiting.erase node) = _
        rw [hfold]
        exact Finset.erase_insert h1

/-- The black set only grows. -/
theorem dfs_visited_mono (g : Graph) :
    ∀ (f : Nat) (node : String) (stack : List String) (st : DfsSt) (x : String),
      x ∈ st.visited → x ∈ (dfs g f node stack st).visited := by
  intro f
  induction f with
  | zero => intro node stack st x h; exact h
  | succ f ih =>
    intro node stack st x h
    by_cases h1 : node ∈ st.visiting
    · rw [dfs_cyc g f node stack st h1]; exact h
    · by_cases h2 : node ∈ st.visited
      · rw [dfs_black g f node stack st h1 h2]; exact h
      · rw [dfs_white g f node stack st h1 h2]
        have hfold : ∀ (ds : List String) (s : DfsSt), x ∈ s.visited →
            x ∈ (dfsFold g f (stack ++ [node]) ds s).visited := by
          intro ds
          induction ds with
          | nil => intro s hs; exact hs
          | cons d t iht =>
            intro s hs
            exact iht _ (ih d (stack ++ [node]) s x hs)
        exact Finset.mem_insert_of_mem (hfold (getDeps g node) _ h)

/-- The cycle list only grows. -/
theorem dfs_cycles_mono (g : Graph) :
    ∀ (f : Nat) (node : String) (stack : List String) (st : DfsSt) (cy : List String),
      cy ∈ st.cycles → cy ∈ (dfs g f node stack st).cycles := by
  intro f
  induction f with
  | zero => intro node stack st cy h; exact h
  | succ f ih =>
    intro node stack st cy h
    by_cases h1 : node ∈ st.visiting
    · rw [dfs_cyc g f node stack st h1]
      exact List.mem_append.2 (Or.inl h)
    · by_cases h2 : node ∈ st.visited
      · rw [dfs_black g f node stack st h1 h2]; exact h
      · rw [dfs_white g f node stack st h1 h2]
        have hfold : ∀ (ds : List String) (s : DfsSt), cy ∈ s.cycles →
            cy ∈ (dfsFold g f (stack ++ [node]) ds s).cycles := by
          intro ds
          induction ds with
          | nil => intro s hs; exact hs
          | cons d t iht =>
            intro s hs
            exact iht _ (ih d (stack ++ [node]) s cy hs)
        exact hfold (getDeps g node) _ h

/-- A node not currently gray is black after its call (fuel permitting). -/
theorem dfs_marks (g : Graph) (f : Nat) (node : String) (stack : List String)
    (st : DfsSt) (h1 : ¬ node ∈ st.visiting) :
    node ∈ (dfs g (f + 1) node stack st).visited := by
  by_cases h2 : node ∈ st.visited
  · rw [dfs_black g f node stack st h1 h2]; exact h2
  · rw [dfs_white g f node stack st h1 h2]
    exact Finset.mem_insert_self node _

theorem getDeps_eq_nil (g : Graph) (node : String) (h : ¬ node ∈ gkeys g) :
    getDeps g node = [] := by
  unfold getDeps
  cases hf : g.find? (fun e => e.1 == node) with
  | none => rfl
  | some e =>
    exfalso
    have h1 := List.find?_some hf
    have h2 := List.mem_of_find?_eq_some hf
    simp only [beq_iff_eq] at h1
    exact h (h1 ▸ List.mem_map_of_mem _ h2)

theorem idxOfS_append (pre : List String) (node : String) (h : ¬ node ∈ pre) :
    idxOfS (pre ++ [node]) node = pre.length := by
  induction pre with
  | nil => simp [idxOfS]
  | cons x xs ih =>
    have hx : ¬ x = node := fun hh => h (by rw [hh]; exact List.mem_cons_self _ _)
    simp only [List.cons_append, idxOfS, if_neg hx, List.length_cons]
    rw [show xs.append [node] = xs ++ [node] from rfl,
      ih (fun hh => h (List.mem_cons_of_mem _ hh))]

/-- The slice emitted for a self-loop at the top of the stack is the
one-element cycle `[node, node]`. -/
theorem cycOf_self (stack : List String) (node : String) (h : ¬ node ∈ stack) :
    cycOf (stack ++ [node]) node = [node, node] := by
  unfold cycOf
  rw [if_pos (List.mem_append.2 (Or.inr (List.mem_singleton.2 rfl)))]
  rw [idxOfS_append stack node h, List.drop_left]
  rfl

/-- The finished-self-loop invariant: every black node with a self-edge
has its one-element cycle recorded. -/
def SelfLoopInv (g : Graph) (st : DfsSt) : Prop :=
  ∀ v, v ∈ getDeps g v → v ∈ st.visited → [v, v] ∈ st.cycles

theorem dfsStep_visited (g : Graph) (f : Nat) (node : String) (stack : List String)
    (st : DfsSt) : (dfsStep g f node stack st).visited
      = insert node (dfsFold g f (stack ++ [node]) (getDeps g node)
          { st with visiting := insert node st.visiting }).visited := rfl

theorem dfsStep_cycles (g : Graph) (f : Nat) (node : String) (stack : List String)
    (st : DfsSt) : (dfsStep g f node stack st).cycles
      = (dfsFold g f (stack ++ [node]) (getDeps g node)
          { st with visiting := insert node st.visiting }).cycles := rfl

/-- `SelfLoopInv` is preserved by any sufficiently fuelled `_dfs_cycle`
call whose gray set mirrors its path stack. -/
theorem dfs_selfloop_inv (g : Graph) :
    ∀ (f : Nat) (node : String) (stack : List String) (st : DfsSt),
      st.visiting = stack.toFinset → stack.Nodup →
      ((gkeys g).toFinset \ st.visiting).card + 2 ≤ f →
      SelfLoopInv g st → SelfLoopInv g (dfs g f node stack st) := by
  intro f
  induction f with
  | zero =>
    intro node stack st _ _ hS _
    exact absurd hS (by omega)
  | succ f ih =>
    intro node stack st hvs hnd hS hInv
    by_cases h1 : node ∈ st.visiting
    · rw [dfs_cyc g f node stack st h1]
      intro v hv hvm
      exact List.mem_append.2 (Or.inl (hInv v hv hvm))
    · by_cases h2 : node ∈ st.visited
      · rw [dfs_black g f node stack st h1 h2]
        exact hInv
      · rw [dfs_white g f node stack st h1 h2]
        have hnodestack : ¬ node ∈ stack := fun hh => h1 (hvs ▸ List.mem_toFinset.2 hh)
        have hvs' : (insert node st.visiting) = (stack ++ [node]).toFinset := by
          rw [hvs]
          ext x
          simp [or_comm]
        have hnd' : (stack ++ [node]).Nodup := by
          rw [List.nodup_append]
          refine ⟨hnd, List.nodup_singleton _, ?_⟩
          intro a ha hb
          simp only [List.mem_singleton] at hb
          subst hb
          exact hnodestack ha
        by_cases hkey : node ∈ gkeys g
        · have hScard : ((gkeys g).toFinset \ insert node st.visiting).card + 2 ≤ f := by
            have hmem : node ∈ (gkeys g).toFinset \ st.visiting :=
              Finset.mem_sdiff.2 ⟨List.mem_toFinset.2 hkey, h1⟩
            rw [Finset.sdiff_insert, Finset.card_erase_of_mem hmem]
            have hpos : 0 < ((gkeys g).toFinset \ st.visiting).card :=
              Finset.card_pos.2 ⟨node, hmem⟩
            omega
          have hfold : ∀ (ds : List String) (s : DfsSt),
              s.visiting = insert node st.visiting → SelfLoopInv g s →
              SelfLoopInv g (dfsFold g f (stack ++ [node]) ds s) ∧
                (dfsFold g f (stack ++ [node]) ds s).visiting = insert node st.visiting := by
            intro ds
            induction ds with
            | nil => intro s hsv hsi; exact ⟨hsi, hsv⟩
            | cons d t iht =>
              intro s hsv hsi
              have hcall : SelfLoopInv g (dfs g f d (stack ++ [node]) s) :=
                ih d (stack ++ [node]) s (by rw [hsv]; exact hvs') hnd'
                  (by rw [hsv]; exact hScard) hsi
              have hres : (dfs g f d (stack ++ [node]) s).visiting
                  = insert node st.visiting := by
                rw [dfs_visiting]; exact hsv
              exact iht _ hres hcall
          obtain ⟨hInv2, _⟩ := hfold (getDeps g node)
            { st with visiting := insert node st.visiting } rfl hInv
          have hselfcyc : node ∈ getDeps g node →
              [node, node] ∈ (dfsFold g f (stack ++ [node]) (getDeps g node)
                { st with visiting := insert node st.visiting }).cycles := by
            intro hself
            have hf2 : 2 ≤ f := by omega
            obtain ⟨f2, rfl⟩ : ∃ f2, f = f2 + 1 := ⟨f - 1, by omega⟩
            have hmono : ∀ (l : List String) (s0 : DfsSt),
                [node, node] ∈ s0.cycles →
                [node, node] ∈ (dfsFold g (f2 + 1) (stack ++ [node]) l s0).cycles := by
              intro l
              induction l with
              | nil => intro s0 hs; exact hs
              | cons x xs ihx =>
                intro s0 hs
                exact ihx _ (dfs_cycles_mono g (f2 + 1) x (stack ++ [node]) s0 _ hs)
            have hgen : ∀ (ds : List String) (s : DfsSt), node ∈ ds →
                s.visiting = insert node st.visiting →
                [node, node] ∈ (dfsFold g (f2 + 1) (stack ++ [node]) ds s).cycles := by
              intro ds
              induction ds with
              | nil => intro s hmem; intro _; simp at hmem
              | cons d t iht =>
                intro s hmem hsv
                rcases List.mem_cons.1 hmem with rfl | hmem
                · show [node, node] ∈ (dfsFold g (f2 + 1) (stack ++ [node]) t
                      (dfs g (f2 + 1) node (stack ++ [node]) s)).cycles
                  have hingray : node ∈ s.visiting := by
                    rw [hsv]; exact Finset.mem_insert_self _ _
                  have hmem2 : [node, node] ∈ (dfs g (f2 + 1) node (stack ++ [node]) s).cycles := by
                    rw [dfs_cyc g f2 node (stack ++ [node]) s hingray]
                    have := cycOf_self stack node hnodestack
                    simp [this]
                  exact hmono t _ hmem2
                · show [node, node] ∈ (dfsFold g (f2 + 1) (stack ++ [node]) t
                      (dfs g (f2 + 1) d (stack ++ [node]) s)).cycles
                  refine iht _ hmem ?_
                  rw [dfs_visiting]
                  exact hsv
            exact hgen (getDeps g node) _ hself rfl
          intro v hvself hvmem
          rw [dfsStep_visited] at hvmem
          rw [dfsStep_cycles]
          rcases Finset.mem_insert.1 hvmem with rfl | hvmem
          · exact hselfcyc hvself
          · exact hInv2 v hvself hvmem
        · have hdeps0 : getDeps g node = [] := getDeps_eq_nil g node hkey
          intro v hvself hvmem
          rw [dfsStep_visited, hdeps0] at hvmem
          rw [dfsStep_cycles, hdeps0]
          rcases Finset.mem_insert.1 hvmem with rfl | hvmem
          · rw [hdeps0] at hvself
            simp at hvself
          · exact hInv v hvself hvmem

/-- The detector reports the one-element cycle of every key with a
self-edge. -/
theorem detect_cycles_selfloop (g : Graph) (v : String)
    (hv : v ∈ gkeys g) (hself : v ∈ getDeps g v) :
    [v, v] ∈ detect_cycles g := by
  have hSfuel : ∀ (st : DfsSt), st.visiting = ∅ →
      ((gkeys g).toFinset \ st.visiting).card + 2 ≤ FUELC g := by
    intro st h
    rw [h, Finset.sdiff_empty]
    unfold FUELC
    have := List.toFinset_card_le (gkeys g)
    omega
  have hfoldmono : ∀ (ks : List String) (st : DfsSt) (x : String), x ∈ st.visited →
      x ∈ (ks.foldl
        (fun st n => if n ∈ st.visited then st else dfs g (FUELC g) n [] st) st).visited := by
    intro ks
    induction ks with
    | nil => intro st x h; exact h
    | cons n t iht =>
      intro st x h
      rw [List.foldl_cons]
      apply iht
      by_cases hn : n ∈ st.visited
      · rw [if_pos hn]; exact h
      · rw [if_neg hn]; exact dfs_visited_mono g (FUELC g) n [] st x h
  have hfold : ∀ (ks : List String) (st : DfsSt), st.visiting = ∅ → SelfLoopInv g st →
      SelfLoopInv g (ks.foldl
        (fun st n => if n ∈ st.visited then st else dfs g (FUELC g) n [] st) st) ∧
      (∀ k ∈ ks, k ∈ (ks.foldl
        (fun st n => if n ∈ st.visited then st else dfs g (FUELC g) n [] st) st).visited) := by
    intro ks
    induction ks with
    | nil => intro st h1 h2; exact ⟨h2, fun k hk => absurd hk (List.not_mem_nil k)⟩
    | cons n t iht =>
      intro st h1 h2
      rw [List.foldl_cons]
      have hstep : SelfLoopInv g (if n ∈ st.visited then st else dfs g (FUELC g) n [] st) ∧
          (if n ∈ st.visited then st else dfs g (FUELC g) n [] st).visiting = ∅ ∧
          n ∈ (if n ∈ st.visited then st else dfs g (FUELC g) n [] st).visited := by
        by_cases hn : n ∈ st.visited
        · rw [if_pos hn]
          exact ⟨h2, h1, hn⟩
        · rw [if_neg hn]
          obtain ⟨f1, hf1⟩ : ∃ f1, FUELC g = f1 + 1 := ⟨(gkeys g).length + 1, rfl⟩
          refine ⟨?_, ?_, ?_⟩
          · exact dfs_selfloop_inv g (FUELC g) n [] st (by rw [h1]; rfl) List.nodup_nil
              (hSfuel st h1) h2
          · rw [dfs_visiting]; exact h1
          · rw [hf1]
            exact dfs_marks g f1 n [] st (by rw [h1]; exact Finset.not_mem_empty n)
      obtain ⟨hA, hB, hC⟩ := hstep
      obtain ⟨hA2, hB2⟩ := iht _ hB hA
      refine ⟨hA2, ?_⟩
      intro k hk
      rcases List.mem_cons.1 hk with rfl | hk
      · exact hfoldmono t _ k hC
      · exact hB2 k hk
  have hinit : SelfLoopInv g ⟨∅, ∅, []⟩ := by
    intro w _ hw
    exact absurd hw (Finset.not_mem_empty w)
  obtain ⟨hfin, hmem⟩ := hfold (gkeys g) ⟨∅, ∅, []⟩ rfl hinit
  exact hfin v hself (hmem v hv)

/-- C8: in every well-formed graph, a package that declares itself as its
own dependency is reported by the cycle detector as the one-element cycle
`[v, v]` (a closed loop whose first element repeats as last), and it
still appears exactly once in the final tier-sorted order. -/
theorem c8_self_loop (env : MetaEnv) (g : Graph) (v : String)
    (hv : v ∈ gkeys g) (hself : v ∈ getDeps g v)
    (hnd : (gkeys g).Nodup) (hdf : DangleFree g) :
    [v, v] ∈ detect_cycles g ∧
    List.count v (tier_sort env (topo_sort g)) = 1 := by
  refine ⟨detect_cycles_selfloop g v hv hself, ?_⟩
  have hperm := (tier_sort_perm env (topo_sort g)).trans (topo_sort_perm g hnd hdf)
  rw [hperm.count_eq]
  exact List.count_eq_one_of_mem hnd hv

/-- The one-node self-loop graph. -/
def c8Graph : Graph := [("A", ["A"])]

/-- C8 witness: the self-loop theorem instantiated on the concrete graph
`A requires A`. -/
theorem c8_self_loop_witness :
    ("A" ∈ gkeys c8Graph) ∧ ("A" ∈ getDeps c8Graph "A") ∧
    (gkeys c8Graph).Nodup ∧ DangleFree c8Graph ∧
    (["A", "A"] ∈ detect_cycles c8Graph ∧
      List.count "A" (tier_sort defaultMeta (topo_sort c8Graph)) = 1) :=
  ⟨by decide, by decide, by decide, by unfold DangleFree; decide,
    c8_self_loop defaultMeta c8Graph "A" (by decide) (by decide) (by decide)
      (by unfold DangleFree; decide)⟩

end Porg
